import Mathlib

/-!
# Verification of pypouch's decimal-precision formatting

A shallow embedding of `src/pypouch/precision_control.py` (the scalar
formatter `_format_decimal` and the column applier
`control_decimal_precision`, with `col_to_str` from
`datatype_utils.py`) together with the parts of Python's
`decimal.Decimal` semantics that those functions rely on: construction
from a string, `quantize` with `ROUND_HALF_UP` under the default context
(precision 28, Emin -999999), and `__str__` (the General Decimal
Arithmetic "to-scientific-string" conversion).

Machine-independent conventions: Python integers are `Int`, decimal
coefficients are `Nat`, strings are Lean `String`s manipulated through
their character lists.

The file is organised as definitions first (the embedding), then
theorems (digit-list infrastructure, parser/printer lemmas, and the
claim theorems).
-/

/-! ## Definitions: decimal digits of a natural number

`digitsRev n` is the little-endian digit list of `n` (empty for 0),
written with explicit fuel so that it reduces in the kernel; it is
proved equal to Mathlib's `Nat.digits 10` below. -/

def digitsRevAux : Nat → Nat → List Nat
  | 0, _ => []
  | fuel + 1, n => if n = 0 then [] else n % 10 :: digitsRevAux fuel (n / 10)

def digitsRev (n : Nat) : List Nat := digitsRevAux n n

/-- Most-significant-digit-first digit list of `n`, with `[0]` for 0 —
the digits of the coefficient as they appear in `str(Decimal)`. -/
def natDigits (n : Nat) : List Nat :=
  if n = 0 then [0] else (digitsRev n).reverse

def digitChar (d : Nat) : Char := Char.ofNat (48 + d)

/-- The character string of a natural number, as Python prints a
nonnegative coefficient. -/
def natChars (n : Nat) : List Char := (natDigits n).map digitChar

/-- Number of decimal digits of a coefficient (1 for 0), as used by the
`decimal` context-precision check. -/
def numDigits (n : Nat) : Nat := (natDigits n).length

/-- Value of a most-significant-first digit list, as Python's `int` of a
digit string (`fold` of multiply-by-ten-and-add). -/
def digitsToNat (ds : List Nat) : Nat := ds.foldl (fun a d => a * 10 + d) 0

/-! ## Definitions: characters -/

def isDigitChar (c : Char) : Bool := 48 ≤ c.toNat && c.toNat ≤ 57

def charToDigit (c : Char) : Nat := c.toNat - 48

/-! ## Definitions: the `Decimal` data model

A finite Python `Decimal` is a sign, an arbitrary-precision coefficient
and an exponent: its numeric value is `±coeff · 10^exp`.  The sign is
kept separately from the coefficient so that negative zero survives, as
it does in Python. -/

structure PyDecimal where
  sign : Bool
  coeff : Nat
  exp : Int
  deriving Repr, DecidableEq

/-- Numeric value of a finite decimal. -/
def PyDecimal.val (d : PyDecimal) : ℚ :=
  (if d.sign then -1 else 1) * (d.coeff : ℚ) * (10 : ℚ) ^ d.exp

/-- Outcome of `Decimal(text)`: a finite decimal; a quiet `NaN` with
its sign and diagnostic payload (which `quantize` propagates without
signalling, so it reaches the output); a signalling special
(`sNaN`/`±Infinity`, which `quantize` later rejects with
`InvalidOperation`); or `InvalidOperation` at construction. -/
inductive DecResult where
  | finite (d : PyDecimal)
  | qnan (sign : Bool) (payload : Nat)
  | special
  | invalid
  deriving Repr, DecidableEq

/-! ## Definitions: `Decimal(string)` — the numeric-string parser

Follows the grammar Python's `decimal` accepts: optional surrounding
whitespace, underscores removed, an optional sign, then either
`digits [. digits] [E sign digits]` (at least one digit before the
exponent marker), or the case-insensitive specials `Inf`, `Infinity`,
`NaN`/`sNaN` with an optional digit payload. -/

def isPySpace (c : Char) : Bool :=
  c = ' ' || c = '\t' || c = '\n' || c = '\x0b' || c = '\x0c' || c = '\r'

def pyStripChars (cs : List Char) : List Char :=
  ((cs.dropWhile isPySpace).reverse.dropWhile isPySpace).reverse

/-- Parse a nonempty all-digit character list; `none` otherwise. -/
def parseDigits (cs : List Char) : Option Nat :=
  if cs ≠ [] && cs.all isDigitChar then some (digitsToNat (cs.map charToDigit)) else none

/-- Split off an optional leading sign; `true` means negative. -/
def splitSign (cs : List Char) : Bool × List Char :=
  match cs with
  | [] => (false, [])
  | c :: r => if c = '-' then (true, r) else if c = '+' then (false, r) else (false, c :: r)

/-- The mantissa `digits [. digits]`, with at least one digit present:
coefficient digits and the count of fractional digits. -/
def parseMantissa (cs : List Char) : Option (Nat × Nat) :=
  let intPart := cs.takeWhile isDigitChar
  let rest := cs.dropWhile isDigitChar
  match rest with
  | [] => (parseDigits cs).map (fun c => (c, 0))
  | '.' :: frac =>
      if intPart = [] && frac = [] then none
      else if frac.all isDigitChar then
        some (digitsToNat ((intPart ++ frac).map charToDigit), frac.length)
      else none
  | _ => none

/-- Split a character list at the first `e`/`E` exponent marker. -/
def splitExpMarker : List Char → List Char × Option (List Char)
  | [] => ([], none)
  | c :: r =>
      if c = 'e' || c = 'E' then ([], some r)
      else
        let (m, x) := splitExpMarker r
        (c :: m, x)

/-- An exponent field: optional sign then nonempty digits. -/
def parseExpField (cs : List Char) : Option Int :=
  let (neg, ds) := splitSign cs
  (parseDigits ds).map (fun v => if neg then -(v : Int) else (v : Int))

/-- Case-insensitive special names, after the sign has been removed:
`inf`, `infinity`, and `nan`/`snan` with an optional digit payload. -/
def isSpecialName (cs : List Char) : Bool :=
  let low := cs.map Char.toLower
  low = ['i', 'n', 'f'] || low = ['i', 'n', 'f', 'i', 'n', 'i', 't', 'y'] ||
    (low.take 3 = ['n', 'a', 'n'] && (low.drop 3).all isDigitChar) ||
    (low.take 4 = ['s', 'n', 'a', 'n'] && (low.drop 4).all isDigitChar)

/-- Case-insensitive quiet-NaN body after the sign: `nan` with an
optional all-digit diagnostic payload; yields the payload digits
(lower-cased, which leaves digits unchanged). -/
def nanDiag (cs : List Char) : Option (List Char) :=
  let low := cs.map Char.toLower
  if low.take 3 = ['n', 'a', 'n'] && (low.drop 3).all isDigitChar then some (low.drop 3)
  else none

def parseDecChars (cs : List Char) : DecResult :=
  let stripped := (pyStripChars cs).filter (fun c => c ≠ '_')
  let (neg, body) := splitSign stripped
  match nanDiag body with
  | some ds => .qnan neg (digitsToNat (ds.map charToDigit))
  | Option.none =>
  if isSpecialName body then .special
  else
    match splitExpMarker body with
    | (mant, none) =>
        match parseMantissa mant with
        | some (c, f) => .finite ⟨neg, c, -(f : Int)⟩
        | none => .invalid
    | (mant, some ex) =>
        match parseMantissa mant, parseExpField ex with
        | some (c, f), some e => .finite ⟨neg, c, e - (f : Int)⟩
        | _, _ => .invalid

def parseDec (s : String) : DecResult := parseDecChars s.data

/-! ## Definitions: `quantize` with `ROUND_HALF_UP`

`d.quantize(Decimal("0." + "0"*n), rounding=ROUND_HALF_UP)` under the
default context: the target exponent is `-n`; the coefficient is the
magnitude `|d| · 10^n` rounded to the nearest integer with exact ties
going up (away from zero, since the sign is reapplied afterwards).
`InvalidOperation` (modelled as `none`) when the target exponent falls
below `Etiny = Emin - prec + 1 = -1000026` or when the resulting
coefficient has more than `prec = 28` digits. -/

def pyQuantize (d : PyDecimal) (n : Nat) : Option PyDecimal :=
  if 1000026 < n then none
  else
    let c :=
      if 0 ≤ d.exp + (n : Int) then d.coeff * 10 ^ (d.exp + (n : Int)).toNat
      else
        let sh := 10 ^ (-(d.exp + (n : Int))).toNat
        d.coeff / sh + (if sh ≤ 2 * (d.coeff % sh) then 1 else 0)
    if 28 < numDigits c then none else some ⟨d.sign, c, -(n : Int)⟩

/-! ## Definitions: `str(Decimal)` — to-scientific-string

The General Decimal Arithmetic conversion Python's `__str__` performs:
plain positional text when the exponent is at most 0 and the adjusted
exponent (exponent plus number of coefficient digits minus one) is at
least -6; scientific `mEsign·adj` text otherwise. -/

def pyDecimalStr (d : PyDecimal) : String :=
  let ds := natChars d.coeff
  let adj : Int := d.exp + (ds.length : Int) - 1
  let body : List Char :=
    if d.exp ≤ 0 ∧ -6 ≤ adj then
      if d.exp = 0 then ds
      else
        let f := (-d.exp).toNat
        if f < ds.length then
          ds.take (ds.length - f) ++ '.' :: ds.drop (ds.length - f)
        else
          '0' :: '.' :: (List.replicate (f - ds.length) '0' ++ ds)
    else
      let mant := match ds with
        | [c] => [c]
        | c :: rest => c :: '.' :: rest
        | [] => []
      mant ++ 'E' :: (if 0 ≤ adj then '+' :: natChars adj.toNat
                      else '-' :: natChars (-adj).toNat)
  ⟨if d.sign then '-' :: body else body⟩

/-- `str` of a quiet NaN: optional sign, `NaN`, then the payload's
digits when it is nonzero. -/
def pyNaNStr (sign : Bool) (payload : Nat) : String :=
  ⟨(if sign then ['-'] else []) ++ 'N' :: 'a' :: 'N' ::
    (if payload = 0 then [] else natChars payload)⟩

/-! ## Definitions: the scalar formatter `_format_decimal` -/

/-- The values a DataFrame cell hands to `_format_decimal`.  A finite
binary float is represented by the decimal that `Decimal(str(x))`
produces from its shortest round-trip `str`: `str` preserves the
float's sign and exact decimal value, and only the sign and value of
the parsed decimal influence the rest of the pipeline. -/
inductive PyValue where
  | none
  | nan
  | inf
  | negInf
  | int (i : Int)
  | float (d : PyDecimal)
  | str (s : String)
  deriving Repr, DecidableEq

/-- `pd.isna`: true for `None`, `pd.NA` and float `nan` (folded into
`.none`/`.nan`), false for every other value including strings. -/
def pyIsNA : PyValue → Bool
  | .none => true
  | .nan => true
  | _ => false

/-- `isinstance(value, (int, float)) and (value == float("inf") or
value == float("-inf"))`. -/
def pyIsInf : PyValue → Bool
  | .inf => true
  | .negInf => true
  | _ => false

/-- `Decimal(str(value))` on the values that reach it. -/
def decOfValue : PyValue → DecResult
  | .none => .invalid
  | .nan => .invalid
  | .inf => .invalid
  | .negInf => .invalid
  | .int i => .finite ⟨i < 0, i.natAbs, 0⟩
  | .float d => .finite d
  | .str s => parseDec s

/-- Python `s.rstrip("0")`. -/
def pyRstripZeros (s : String) : String :=
  ⟨((s.data.reverse.dropWhile (fun c => c = '0'))).reverse⟩

def strContainsDot (s : String) : Bool := s.data.contains '.'

def strEndsWithDot (s : String) : Bool := s.data.getLast? = some '.'

/-- The trailing-zero block of `_format_decimal`: when the printed
decimal contains a point, strip trailing `"0"` characters and restore a
single zero if that left the string ending in the point. -/
def trimTrailingZeros (s : String) : String :=
  if strContainsDot s then
    let s1 := pyRstripZeros s
    if strEndsWithDot s1 then ⟨s1.data ++ ['0']⟩ else s1
  else s

/-- `_format_decimal(value, n)`: empty string for missing values,
infinities and every `decimal` failure; otherwise quantize to `n`
fractional digits with `ROUND_HALF_UP`, print, and trim trailing
zeros after the decimal point, restoring a single zero when the whole
fractional part was trimmed.  A quiet NaN passes through `quantize`
without raising — the operation keeps its sign and clamps the payload
to the context precision's 28 least significant digits — so its
printed form reaches the trailing-zero block, which leaves it alone
since it never contains `'.'`. -/
def format_decimal (v : PyValue) (n : Nat) : String :=
  if pyIsNA v then ""
  else if pyIsInf v then ""
  else
    match decOfValue v with
    | .invalid => ""
    | .special => ""
    | .qnan b p => trimTrailingZeros (pyNaNStr b (p % 10 ^ 28))
    | .finite d =>
        match pyQuantize d n with
        | Option.none => ""
        | some q => trimTrailingZeros (pyDecimalStr q)

/-! ## Definitions: output-shape predicates

Decidable renderings of the spec's output grammar: the
`FormattedDecimal` pattern `-?\d+\.\d+`, the optionally-signed integer
pattern `-?\d+`, and the count of fractional digits of a string. -/

/-- Drop one leading `'-'` when present (the `-?` of the patterns). -/
def stripLeadMinus (cs : List Char) : List Char :=
  match cs with
  | [] => []
  | c :: r => if c = '-' then r else c :: r

/-- Whole-string match of `-?\d+\.\d+`. -/
def isFmtDecimal (s : String) : Bool :=
  let body := stripLeadMinus s.data
  let intPart := body.takeWhile isDigitChar
  let rest := body.dropWhile isDigitChar
  !intPart.isEmpty &&
    match rest with
    | '.' :: fr => !fr.isEmpty && fr.all isDigitChar
    | _ => false

/-- Whole-string match of `-?\d+`. -/
def isSignedDigitString (s : String) : Bool :=
  let body := stripLeadMinus s.data
  !body.isEmpty && body.all isDigitChar

/-- Number of characters after the first `'.'` (0 when there is none). -/
def fracCount (s : String) : Nat :=
  ((s.data.dropWhile (fun c => c ≠ '.')).drop 1).length

/-! ## Definitions: the DataFrame model and `control_decimal_precision`

A DataFrame is an ordered association of column names to columns; a
column is a declared element dtype together with an ordered list of
cell values.  `control_decimal_precision` is modelled against an
explicit object store (a list of tables addressed by index) so that the
copy-on-write contract is visible: `df.copy()` allocates a fresh table
at the end of the store and every subsequent write targets that copy. -/

inductive Dtype where
  | int64
  | float64
  | object
  | string
  deriving Repr, DecidableEq

structure Column where
  dtype : Dtype
  values : List PyValue
  deriving Repr, DecidableEq

structure Table where
  cols : List (String × Column)
  deriving Repr, DecidableEq

/-- `df[name]`: first column with the given name, `none` when pandas
would raise `KeyError`. -/
def Table.lookup (t : Table) (name : String) : Option Column :=
  (t.cols.find? (fun p => p.1 = name)).map (·.2)

/-- `df[name] = col`: replace an existing column in place, append a new
one otherwise. -/
def Table.setCol (t : Table) (name : String) (col : Column) : Table :=
  if t.cols.any (fun p => p.1 = name) then
    ⟨t.cols.map (fun p => if p.1 = name then (p.1, col) else p)⟩
  else
    ⟨t.cols ++ [(name, col)]⟩

inductive PyErr where
  | valueError
  | keyError (name : String)
  deriving Repr, DecidableEq

/-- `df_copy[column].apply(lambda x: _format_decimal(x, n))`: an
element-wise map producing an object-dtyped column of strings. -/
def formatColumn (c : Column) (n : Nat) : Column :=
  ⟨.object, c.values.map (fun x => PyValue.str (format_decimal x n))⟩

/-- The `for column in cols_list` loop: look each column up (pandas
raises `KeyError` for a missing name) and assign the formatted column
back. -/
def applyCols (t : Table) (colsList : List String) (n : Nat) : Except PyErr Table :=
  match colsList with
  | [] => .ok t
  | c :: rest =>
      match t.lookup c with
      | Option.none => .error (.keyError c)
      | some col => applyCols (t.setCol c (formatColumn col n)) rest n

/-- `col_to_str(df, cols_list)` from `datatype_utils.py`: for each
listed column, if its dtype is not already string, `astype("string")` —
a dtype retag; the cell values, all strings after formatting, are
unchanged.  (In the `control_decimal_precision` call every listed name
was just assigned, so the lookup never fails there.) -/
def col_to_str (t : Table) (colsList : List String) : Table :=
  colsList.foldl
    (fun acc c =>
      match acc.lookup c with
      | Option.none => acc
      | some col => if col.dtype = .string then acc else acc.setCol c ⟨.string, col.values⟩)
    t

/-- `control_decimal_precision(df, cols_list, n)` over the object
store: validate `n`, copy the table into a fresh slot, format the
listed columns of the copy, coerce them to string dtype, and return the
updated store with the reference to the copy. -/
def control_decimal_precision (store : List Table) (dfRef : Nat)
    (colsList : List String) (n : Int) : Except PyErr (List Table × Nat) :=
  if n < 0 then .error .valueError
  else
    let df := store.getD dfRef ⟨[]⟩
    match applyCols df colsList n.toNat with
    | .error e => .error e
    | .ok t => .ok (store ++ [col_to_str t colsList], store.length)

/-! ## Theorems: digit-list infrastructure -/

theorem digitsRevAux_eq_digits (fuel n : Nat) (h : n ≤ fuel) :
    digitsRevAux fuel n = Nat.digits 10 n := by
  induction fuel generalizing n with
  | zero =>
      have hn : n = 0 := by omega
      subst hn
      simp [digitsRevAux]
  | succ f ih =>
      by_cases hn : n = 0
      · simp [digitsRevAux, hn]
      · have hlt : n / 10 < n := Nat.div_lt_self (Nat.pos_of_ne_zero hn) (by norm_num)
        rw [digitsRevAux, if_neg hn, ih (n / 10) (by omega),
          Nat.digits_def' (b := 10) (by norm_num) (Nat.pos_of_ne_zero hn)]

theorem digitsRev_eq_digits (n : Nat) : digitsRev n = Nat.digits 10 n :=
  digitsRevAux_eq_digits n n le_rfl

theorem natDigits_zero : natDigits 0 = [0] := rfl

theorem natDigits_pos (n : Nat) (h : 0 < n) :
    natDigits n = (Nat.digits 10 n).reverse := by
  unfold natDigits
  rw [if_neg (by omega), digitsRev_eq_digits]

theorem natDigits_ne_nil (n : Nat) : natDigits n ≠ [] := by
  by_cases h : n = 0
  · simp [h, natDigits_zero]
  · rw [natDigits_pos n (by omega)]
    simp [Nat.digits_ne_nil_iff_ne_zero, h]

theorem natDigits_lt (n : Nat) : ∀ d ∈ natDigits n, d < 10 := by
  by_cases h : n = 0
  · simp [h, natDigits_zero]
  · rw [natDigits_pos n (by omega)]
    intro d hd
    exact Nat.digits_lt_base (by norm_num) (List.mem_reverse.1 hd)

theorem length_natDigits_pos (n : Nat) : 0 < (natDigits n).length :=
  List.length_pos.2 (natDigits_ne_nil n)

theorem digitsToNat_go (ds : List Nat) (a : Nat) :
    ds.foldl (fun a d => a * 10 + d) a = a * 10 ^ ds.length + digitsToNat ds := by
  induction ds generalizing a with
  | nil => simp [digitsToNat]
  | cons d t ih =>
    rw [List.foldl_cons, ih]
    have h2 : digitsToNat (d :: t) = d * 10 ^ t.length + digitsToNat t := by
      show List.foldl _ 0 (d :: t) = _
      rw [List.foldl_cons, ih]
      norm_num
    rw [h2, List.length_cons]
    ring

theorem digitsToNat_append (xs ys : List Nat) :
    digitsToNat (xs ++ ys) = digitsToNat xs * 10 ^ ys.length + digitsToNat ys := by
  unfold digitsToNat
  rw [List.foldl_append]
  exact digitsToNat_go ys _

theorem digitsToNat_reverse (ds : List Nat) :
    digitsToNat ds.reverse = Nat.ofDigits 10 ds := by
  induction ds with
  | nil => rfl
  | cons d t ih =>
    rw [List.reverse_cons, digitsToNat_append, ih]
    simp only [Nat.ofDigits_cons]
    have hd : digitsToNat [d] = d := by
      show List.foldl _ 0 [d] = d
      simp
    rw [hd, List.length_singleton]
    ring

theorem digitsToNat_natDigits (n : Nat) : digitsToNat (natDigits n) = n := by
  by_cases h : n = 0
  · simp [h, natDigits_zero, digitsToNat]
  · rw [natDigits_pos n (by omega), digitsToNat_reverse, Nat.ofDigits_digits]

theorem digitsToNat_replicate_zero (k : Nat) :
    digitsToNat (List.replicate k 0) = 0 := by
  induction k with
  | zero => rfl
  | succ m ih =>
    rw [List.replicate_succ', digitsToNat_append, ih]
    norm_num
    show List.foldl _ 0 [0] = 0
    simp

/-- Multiplying by `10^k` appends `k` zero digits (for a positive number). -/
theorem natDigits_mul_pow (n k : Nat) (h : 0 < n) :
    natDigits (n * 10 ^ k) = natDigits n ++ List.replicate k 0 := by
  induction k with
  | zero => simp
  | succ m ih =>
    have hpos : 0 < n * 10 ^ m := by positivity
    have hstep : n * 10 ^ (m + 1) = 10 * (n * 10 ^ m) := by ring
    rw [hstep, natDigits_pos _ (by positivity),
      Nat.digits_def' (b := 10) (by norm_num) (by positivity)]
    have h10 : 10 * (n * 10 ^ m) % 10 = 0 := by omega
    have h10' : 10 * (n * 10 ^ m) / 10 = n * 10 ^ m := by omega
    rw [h10, h10', List.reverse_cons, ← natDigits_pos _ hpos, ih, List.replicate_succ']
    simp [List.append_assoc]

/-! ## Theorems: character facts -/

theorem digitChar_isDigit (d : Nat) (h : d < 10) : isDigitChar (digitChar d) = true := by
  interval_cases d <;> decide

theorem charToDigit_digitChar (d : Nat) (h : d < 10) : charToDigit (digitChar d) = d := by
  interval_cases d <;> decide

theorem digitChar_ne_dot (d : Nat) (h : d < 10) : digitChar d ≠ '.' := by
  interval_cases d <;> decide

theorem digitChar_ne_e (d : Nat) (h : d < 10) : digitChar d ≠ 'E' := by
  interval_cases d <;> decide

theorem digitChar_ne_minus (d : Nat) (h : d < 10) : digitChar d ≠ '-' := by
  interval_cases d <;> decide

theorem natChars_all_digits (n : Nat) : ∀ c ∈ natChars n, isDigitChar c = true := by
  intro c hc
  obtain ⟨d, hd, rfl⟩ := List.mem_map.1 hc
  exact digitChar_isDigit d (natDigits_lt n d hd)

theorem natChars_ne_nil (n : Nat) : natChars n ≠ [] := by
  unfold natChars
  simp [natDigits_ne_nil]

/-! ## Theorems: takeWhile/dropWhile over known structure -/

theorem takeWhile_append_all {p : Char → Bool} (xs : List Char) (y : Char) (ys : List Char)
    (hxs : ∀ c ∈ xs, p c = true) (hy : p y = false) :
    (xs ++ y :: ys).takeWhile p = xs := by
  induction xs with
  | nil => simp [List.takeWhile_cons, hy]
  | cons x t ih =>
    have hx : p x = true := hxs x (by simp)
    simp only [List.cons_append, List.takeWhile_cons, hx, if_true]
    rw [ih (fun c hc => hxs c (by simp [hc]))]

theorem dropWhile_append_all {p : Char → Bool} (xs : List Char) (y : Char) (ys : List Char)
    (hxs : ∀ c ∈ xs, p c = true) (hy : p y = false) :
    (xs ++ y :: ys).dropWhile p = y :: ys := by
  induction xs with
  | nil => simp [List.dropWhile_cons, hy]
  | cons x t ih =>
    have hx : p x = true := hxs x (by simp)
    simp only [List.cons_append, List.dropWhile_cons, hx, if_true]
    exact ih (fun c hc => hxs c (by simp [hc]))

theorem dropWhile_append_stop {p : Char → Bool} (xs : List Char) (y : Char) (ys : List Char)
    (hy : p y = false) :
    (xs ++ y :: ys).dropWhile p = xs.dropWhile p ++ y :: ys := by
  induction xs with
  | nil => simp [List.dropWhile_cons, hy]
  | cons x t ih =>
    by_cases hx : p x = true
    · simp only [List.cons_append, List.dropWhile_cons, hx, if_true]
      exact ih
    · simp only [List.cons_append, List.dropWhile_cons, hx]
      simp at hx
      simp [hx]

theorem mem_dropWhile_of_mem {p : Char → Bool} (l : List Char) (c : Char)
    (hc : p c = false) (hmem : c ∈ l) : c ∈ l.dropWhile p := by
  induction l with
  | nil => cases hmem
  | cons x t ih =>
    by_cases hx : p x = true
    · rw [List.dropWhile_cons, if_pos hx]
      rcases List.mem_cons.1 hmem with rfl | hmem2
      · rw [hx] at hc; cases hc
      · exact ih hmem2
    · rw [List.dropWhile_cons, if_neg hx]
      exact hmem

theorem dropWhile_all {p : Char → Bool} (xs : List Char)
    (hxs : ∀ c ∈ xs, p c = true) : xs.dropWhile p = [] := by
  induction xs with
  | nil => rfl
  | cons x t ih =>
    rw [List.dropWhile_cons, if_pos (hxs x (by simp))]
    exact ih (fun c hc => hxs c (by simp [hc]))

theorem takeWhile_all {p : Char → Bool} (xs : List Char)
    (hxs : ∀ c ∈ xs, p c = true) : xs.takeWhile p = xs := by
  induction xs with
  | nil => rfl
  | cons x t ih =>
    rw [List.takeWhile_cons, if_pos (hxs x (by simp))]
    rw [ih (fun c hc => hxs c (by simp [hc]))]

/-! ## Theorems: character classes of the strings the printer emits -/

/-- A digit character is none of the structural characters the parser
and printer look for. -/
theorem isDigitChar_ne (c : Char) (h : isDigitChar c = true) (x : Char)
    (hx : isDigitChar x = false) : c ≠ x := by
  intro hcx
  rw [hcx, hx] at h
  cases h

theorem isDigitChar_not_space (c : Char) (h : isDigitChar c = true) :
    isPySpace c = false := by
  have h1 := isDigitChar_ne c h ' ' (by decide)
  have h2 := isDigitChar_ne c h '\t' (by decide)
  have h3 := isDigitChar_ne c h '\n' (by decide)
  have h4 := isDigitChar_ne c h '\x0b' (by decide)
  have h5 := isDigitChar_ne c h '\x0c' (by decide)
  have h6 := isDigitChar_ne c h '\r' (by decide)
  simp [isPySpace, h1, h2, h3, h4, h5, h6]

theorem isDigitChar_toLower (c : Char) (h : isDigitChar c = true) :
    c.toLower = c := by
  have hle : c.toNat ≤ 57 := by
    simp [isDigitChar] at h
    exact h.2
  unfold Char.toLower
  rw [if_neg (by omega)]

theorem map_charToDigit_natChars (n : Nat) :
    (natChars n).map charToDigit = natDigits n := by
  unfold natChars
  rw [List.map_map]
  have : ∀ d ∈ natDigits n, (charToDigit ∘ digitChar) d = id d := by
    intro d hd
    exact charToDigit_digitChar d (natDigits_lt n d hd)
  rw [List.map_congr_left this, List.map_id]

theorem digitsToNat_zeros_front (k : Nat) (xs : List Nat) :
    digitsToNat (List.replicate k 0 ++ xs) = digitsToNat xs := by
  rw [digitsToNat_append, digitsToNat_replicate_zero]
  ring

/-! ## Theorems: shape of the plain (positional) rendering

When the exponent `-f` is strictly negative and the adjusted exponent
is at least -6, `str(Decimal)` produces `sign? intpart . fracpart` with
a nonempty all-digit integer part and exactly `f` fractional digits,
and the digits read back as the coefficient. -/

theorem pyDecimalStr_plain_shape (q : PyDecimal) (f : Nat)
    (hexp : q.exp = -(f : Int)) (hf : 1 ≤ f)
    (hadj : -6 ≤ q.exp + ((natChars q.coeff).length : Int) - 1) :
    ∃ I F : List Char,
      (pyDecimalStr q).data = (if q.sign then ['-'] else []) ++ I ++ '.' :: F ∧
      I ≠ [] ∧ (∀ c ∈ I, isDigitChar c = true) ∧ (∀ c ∈ F, isDigitChar c = true) ∧
      F.length = f ∧
      digitsToNat ((I ++ F).map charToDigit) = q.coeff := by
  have hexple : q.exp ≤ 0 := by omega
  have hexpne : ¬ q.exp = 0 := by omega
  have hfNat : (-q.exp).toNat = f := by omega
  unfold pyDecimalStr
  simp only [hexple, hadj, and_self, if_true, hexpne, if_false, hfNat]
  by_cases hlt : f < (natChars q.coeff).length
  · refine ⟨(natChars q.coeff).take ((natChars q.coeff).length - f),
      (natChars q.coeff).drop ((natChars q.coeff).length - f), ?_, ?_, ?_, ?_, ?_, ?_⟩
    · simp only [if_pos hlt]
      cases q.sign <;> simp
    · have : ((natChars q.coeff).take ((natChars q.coeff).length - f)).length =
          (natChars q.coeff).length - f := by
        rw [List.length_take]
        omega
      intro hnil
      rw [hnil] at this
      simp at this
      omega
    · intro c hc
      exact natChars_all_digits q.coeff c (List.mem_of_mem_take hc)
    · intro c hc
      exact natChars_all_digits q.coeff c (List.mem_of_mem_drop hc)
    · rw [List.length_drop]
      omega
    · rw [List.take_append_drop, map_charToDigit_natChars, digitsToNat_natDigits]
  · refine ⟨['0'], List.replicate (f - (natChars q.coeff).length) '0' ++ natChars q.coeff,
      ?_, ?_, ?_, ?_, ?_, ?_⟩
    · simp only [if_neg hlt]
      cases q.sign <;> simp
    · simp
    · intro c hc
      simp at hc
      rw [hc]
      decide
    · intro c hc
      rcases List.mem_append.1 hc with hm | hm
      · rw [List.eq_of_mem_replicate hm]
        decide
      · exact natChars_all_digits q.coeff c hm
    · rw [List.length_append, List.length_replicate]
      omega
    · have h0 : charToDigit '0' = 0 := by decide
      rw [List.singleton_append, List.map_cons, h0, List.map_append,
        map_charToDigit_natChars]
      have hrep : (List.replicate (f - (natChars q.coeff).length) '0').map charToDigit =
          List.replicate (f - (natChars q.coeff).length) 0 := by
        rw [List.map_replicate, h0]
      rw [hrep]
      have hrw : (0 : Nat) :: (List.replicate (f - (natChars q.coeff).length) 0 ++ natDigits q.coeff)
          = List.replicate (f - (natChars q.coeff).length + 1) 0 ++ natDigits q.coeff := by
        rw [List.replicate_succ, List.cons_append]
      rw [hrw, digitsToNat_zeros_front, digitsToNat_natDigits]

/-! ## Theorems: the trailing-zero trim on shaped strings -/

/-- On a string of the form `sign? intpart . fracpart` (digit parts,
nonempty integer part), `trimTrailingZeros` strips the trailing zeros
of the fractional part and restores a single `'0'` when nothing is
left. -/
theorem trim_shaped (sgn I F : List Char)
    (hFdig : ∀ c ∈ F, isDigitChar c = true) :
    trimTrailingZeros ⟨sgn ++ I ++ '.' :: F⟩ =
      ⟨sgn ++ I ++ '.' ::
        (if ((F.reverse.dropWhile (fun c => c = '0')).reverse).isEmpty then ['0']
         else (F.reverse.dropWhile (fun c => c = '0')).reverse)⟩ := by
  have hdot : strContainsDot ⟨sgn ++ I ++ '.' :: F⟩ = true := by
    unfold strContainsDot
    simp
  have hstrip : pyRstripZeros ⟨sgn ++ I ++ '.' :: F⟩ =
      ⟨sgn ++ I ++ '.' :: (F.reverse.dropWhile (fun c => c = '0')).reverse⟩ := by
    unfold pyRstripZeros
    have hrev : (sgn ++ I ++ '.' :: F).reverse =
        F.reverse ++ '.' :: (I.reverse ++ sgn.reverse) := by
      simp [List.reverse_append]
    rw [show (⟨sgn ++ I ++ '.' :: F⟩ : String).data = sgn ++ I ++ '.' :: F from rfl, hrev,
      dropWhile_append_stop _ _ _ (by decide)]
    have : ((F.reverse.dropWhile (fun c => c = '0')) ++ '.' :: (I.reverse ++ sgn.reverse)).reverse
        = sgn ++ I ++ '.' :: (F.reverse.dropWhile (fun c => c = '0')).reverse := by
      simp [List.reverse_append]
    rw [this]
  by_cases hF1 : (F.reverse.dropWhile (fun c => c = '0')).reverse = []
  · have hends : strEndsWithDot ⟨sgn ++ I ++ '.' :: (F.reverse.dropWhile (fun c => c = '0')).reverse⟩ = true := by
      unfold strEndsWithDot
      rw [show (⟨sgn ++ I ++ '.' :: (F.reverse.dropWhile (fun c => c = '0')).reverse⟩ : String).data
          = sgn ++ I ++ '.' :: (F.reverse.dropWhile (fun c => c = '0')).reverse from rfl]
      rw [hF1, show sgn ++ I ++ '.' :: ([] : List Char) = (sgn ++ I) ++ '.' :: [] from by simp,
        List.getLast?_append_cons]
      simp
    simp only [trimTrailingZeros, hdot, if_true, hstrip, hends]
    apply congrArg
    rw [hF1]
    simp
  · have hne : (F.reverse.dropWhile (fun c => c = '0')).reverse ≠ [] := hF1
    have hends : strEndsWithDot ⟨sgn ++ I ++ '.' :: (F.reverse.dropWhile (fun c => c = '0')).reverse⟩ = false := by
      unfold strEndsWithDot
      rw [show (⟨sgn ++ I ++ '.' :: (F.reverse.dropWhile (fun c => c = '0')).reverse⟩ : String).data
          = sgn ++ I ++ '.' :: (F.reverse.dropWhile (fun c => c = '0')).reverse from rfl]
      rw [show sgn ++ I ++ '.' :: (F.reverse.dropWhile (fun c => c = '0')).reverse
          = (sgn ++ I) ++ '.' :: (F.reverse.dropWhile (fun c => c = '0')).reverse from by simp,
        List.getLast?_append_cons]
      have hcons : ('.' :: (F.reverse.dropWhile (fun c => c = '0')).reverse).getLast? =
          ((F.reverse.dropWhile (fun c => c = '0')).reverse).getLast? :=
        List.getLast?_append_of_ne_nil ['.'] hne
      rw [hcons, List.getLast?_eq_getLast _ hne]
      have hmem : ((F.reverse.dropWhile (fun c => c = '0')).reverse).getLast hne ∈
          (F.reverse.dropWhile (fun c => c = '0')).reverse := List.getLast_mem hne
      have hmemF : ((F.reverse.dropWhile (fun c => c = '0')).reverse).getLast hne ∈ F := by
        rw [List.mem_reverse] at hmem
        have hsub := List.dropWhile_sublist (l := F.reverse) (p := fun c => c = '0')
        have hmem2 := hsub.mem hmem
        rw [List.mem_reverse] at hmem2
        exact hmem2
      have hnedot : ((F.reverse.dropWhile (fun c => c = '0')).reverse).getLast hne ≠ '.' :=
        isDigitChar_ne _ (hFdig _ hmemF) '.' (by decide)
      simp only [decide_eq_false_iff_not, Option.some.injEq]
      have hlen : F.reverse.dropWhile (fun c => c = '0') ≠ [] := by
        intro hc
        rw [hc] at hne
        simp at hne
      have hheadF : (F.reverse.dropWhile (fun c => c = '0')).head hlen ∈ F := by
        have hmemh := List.head_mem hlen
        have hsub := List.dropWhile_sublist (l := F.reverse) (p := fun c => c = '0')
        have hmem3 := hsub.mem hmemh
        rw [List.mem_reverse] at hmem3
        exact hmem3
      have hheadne : (F.reverse.dropWhile (fun c => c = '0')).head hlen ≠ '.' :=
        isDigitChar_ne _ (hFdig _ hheadF) '.' (by decide)
      simp [List.getLast_reverse, hheadne]
    simp only [trimTrailingZeros, hdot, if_true, hstrip, hends, if_false]
    simp [hF1]

/-! ## Theorems: the scientific branch always shows an `E` -/

theorem pyDecimalStr_sci_mem (q : PyDecimal)
    (hsci : ¬(q.exp ≤ 0 ∧ -6 ≤ q.exp + ((natChars q.coeff).length : Int) - 1)) :
    'E' ∈ (pyDecimalStr q).data := by
  unfold pyDecimalStr
  simp only [if_neg hsci]
  have hmem : ∀ tail : List Char, 'E' ∈
      ((match natChars q.coeff with
        | [c] => [c]
        | c :: rest => c :: '.' :: rest
        | [] => []) ++ 'E' :: tail) := by
    intro tail
    simp
  cases hq : q.sign <;> simp only [if_true, if_false, Bool.false_eq_true] <;>
    first
    | exact hmem _
    | exact List.mem_cons_of_mem _ (hmem _)

theorem trim_mem_E (s : String) (h : 'E' ∈ s.data) :
    'E' ∈ (trimTrailingZeros s).data := by
  unfold trimTrailingZeros
  by_cases hdot : strContainsDot s = true
  · simp only [hdot, if_true]
    have hmem1 : 'E' ∈ (pyRstripZeros s).data := by
      unfold pyRstripZeros
      rw [show ((⟨(s.data.reverse.dropWhile (fun c => c = '0')).reverse⟩ : String)).data
          = (s.data.reverse.dropWhile (fun c => c = '0')).reverse from rfl]
      rw [List.mem_reverse]
      exact mem_dropWhile_of_mem _ _ (by decide) (List.mem_reverse.2 h)
    by_cases hend : strEndsWithDot (pyRstripZeros s) = true
    · simp only [hend, if_true]
      exact List.mem_append.2 (Or.inl hmem1)
    · simp only [hend, if_false]
      exact hmem1
  · simp only [hdot, if_false]
    exact h

/-! ## Theorems: the parser reads a plain rendering back -/

theorem dropWhile_eq_self_of_all {p : Char → Bool} (l : List Char)
    (h : ∀ c ∈ l, p c = false) : l.dropWhile p = l := by
  cases l with
  | nil => rfl
  | cons x t =>
      rw [List.dropWhile_cons, if_neg]
      rw [h x (by simp)]
      simp

theorem pyStripChars_eq_self (l : List Char)
    (h : ∀ c ∈ l, isPySpace c = false) : pyStripChars l = l := by
  unfold pyStripChars
  rw [dropWhile_eq_self_of_all l h,
    dropWhile_eq_self_of_all l.reverse (fun c hc => h c (List.mem_reverse.1 hc)),
    List.reverse_reverse]

theorem splitSign_not_sign (c : Char) (r : List Char) (h1 : c ≠ '-') (h2 : c ≠ '+') :
    splitSign (c :: r) = (false, c :: r) := by
  simp only [splitSign]
  rw [if_neg h1, if_neg h2]

theorem isSpecialName_digit_head (c : Char) (r : List Char) (h : isDigitChar c = true) :
    isSpecialName (c :: r) = false := by
  have h1 : c ≠ 'i' := isDigitChar_ne c h 'i' (by decide)
  have h2 : c ≠ 's' := isDigitChar_ne c h 's' (by decide)
  have h3 : c ≠ 'n' := isDigitChar_ne c h 'n' (by decide)
  simp [isSpecialName, isDigitChar_toLower c h, h1, h2, h3]

theorem nanDiag_digit_head (c : Char) (r : List Char) (h : isDigitChar c = true) :
    nanDiag (c :: r) = none := by
  have h3 : c ≠ 'n' := isDigitChar_ne c h 'n' (by decide)
  simp [nanDiag, isDigitChar_toLower c h, h3]

theorem splitExpMarker_no_e (l : List Char) (h : ∀ c ∈ l, c ≠ 'e' ∧ c ≠ 'E') :
    splitExpMarker l = (l, none) := by
  induction l with
  | nil => rfl
  | cons x t ih =>
      unfold splitExpMarker
      rw [if_neg]
      · rw [ih (fun c hc => h c (by simp [hc]))]
      · have := h x (by simp)
        simp [this.1, this.2]

theorem parseMantissa_shaped (I F : List Char) (hI : I ≠ [])
    (hIdig : ∀ c ∈ I, isDigitChar c = true) (hFdig : ∀ c ∈ F, isDigitChar c = true) :
    parseMantissa (I ++ '.' :: F) =
      some (digitsToNat ((I ++ F).map charToDigit), F.length) := by
  unfold parseMantissa
  rw [takeWhile_append_all I '.' F hIdig (by decide),
    dropWhile_append_all I '.' F hIdig (by decide)]
  simp only
  rw [if_neg (by simp [hI]), if_pos (List.all_eq_true.2 hFdig)]

/-- Parsing the canonical `sign? intpart . fracpart` text recovers the
sign, the digits as coefficient, and minus the fractional length as
exponent — `Decimal(str(d))` round-trips a plainly-printed decimal. -/
theorem parse_shaped (b : Bool) (I F : List Char) (hI : I ≠ [])
    (hIdig : ∀ c ∈ I, isDigitChar c = true) (hFdig : ∀ c ∈ F, isDigitChar c = true) :
    parseDecChars ((if b then ['-'] else []) ++ I ++ '.' :: F) =
      .finite ⟨b, digitsToNat ((I ++ F).map charToDigit), -(F.length : Int)⟩ := by
  obtain ⟨hd, tl, rfl⟩ : ∃ hd tl, I = hd :: tl := by
    cases I with
    | nil => exact absurd rfl hI
    | cons x t => exact ⟨x, t, rfl⟩
  have hhd : isDigitChar hd = true := hIdig hd (by simp)
  have hallns : ∀ c ∈ (if b then ['-'] else []) ++ (hd :: tl) ++ '.' :: F,
      isPySpace c = false := by
    intro c hc
    rcases List.mem_append.1 hc with hm | hm
    · rcases List.mem_append.1 hm with hm2 | hm2
      · cases b <;> simp at hm2
        rw [hm2]
        decide
      · exact isDigitChar_not_space c (hIdig c hm2)
    · rcases List.mem_cons.1 hm with rfl | hm2
      · decide
      · exact isDigitChar_not_space c (hFdig c hm2)
  have hallnu : ∀ c ∈ (if b then ['-'] else []) ++ (hd :: tl) ++ '.' :: F,
      (c ≠ '_' : Bool) = true := by
    intro c hc
    simp only [ne_eq, decide_eq_true_eq]
    rcases List.mem_append.1 hc with hm | hm
    · rcases List.mem_append.1 hm with hm2 | hm2
      · cases b <;> simp at hm2
        rw [hm2]
        decide
      · exact isDigitChar_ne c (hIdig c hm2) '_' (by decide)
    · rcases List.mem_cons.1 hm with rfl | hm2
      · decide
      · exact isDigitChar_ne c (hFdig c hm2) '_' (by decide)
  have hnoe : ∀ c ∈ (hd :: tl) ++ '.' :: F, c ≠ 'e' ∧ c ≠ 'E' := by
    intro c hc
    rcases List.mem_append.1 hc with hm | hm
    · exact ⟨isDigitChar_ne c (hIdig c hm) 'e' (by decide),
        isDigitChar_ne c (hIdig c hm) 'E' (by decide)⟩
    · rcases List.mem_cons.1 hm with rfl | hm2
      · exact ⟨by decide, by decide⟩
      · exact ⟨isDigitChar_ne c (hFdig c hm2) 'e' (by decide),
          isDigitChar_ne c (hFdig c hm2) 'E' (by decide)⟩
  have hsplit : splitSign ((if b = true then ['-'] else []) ++ (hd :: tl) ++ '.' :: F)
      = (b, (hd :: tl) ++ '.' :: F) := by
    cases b
    · simp only [Bool.false_eq_true, if_false, List.nil_append]
      exact splitSign_not_sign hd (tl ++ '.' :: F)
        (isDigitChar_ne hd hhd '-' (by decide)) (isDigitChar_ne hd hhd '+' (by decide))
    · simp only [if_pos rfl]
      rfl
  have hspecial : isSpecialName ((hd :: tl) ++ '.' :: F) = false := by
    rw [List.cons_append]
    exact isSpecialName_digit_head hd (tl ++ '.' :: F) hhd
  have hnan : nanDiag ((hd :: tl) ++ '.' :: F) = none := by
    rw [List.cons_append]
    exact nanDiag_digit_head hd (tl ++ '.' :: F) hhd
  have hexp2 : splitExpMarker ((hd :: tl) ++ '.' :: F) = ((hd :: tl) ++ '.' :: F, none) :=
    splitExpMarker_no_e _ hnoe
  have hmant := parseMantissa_shaped (hd :: tl) F hI hIdig hFdig
  simp only [parseDecChars, pyStripChars_eq_self _ hallns, List.filter_eq_self.2 hallnu,
    hsplit, hnan, hspecial, Bool.false_eq_true, if_false, hexp2, hmant]

/-! ## Theorems: how the trim interacts with the printed fraction -/

theorem dropWhile_cons_false {p : Char → Bool} (x : Char) (t : List Char)
    (h : p x = false) : (x :: t).dropWhile p = x :: t := by
  rw [List.dropWhile_cons, h]
  simp

theorem dropWhile_append_of_all {p : Char → Bool} (xs ys : List Char)
    (h : ∀ c ∈ xs, p c = true) : (xs ++ ys).dropWhile p = ys.dropWhile p := by
  induction xs with
  | nil => rfl
  | cons x t ih =>
      rw [List.cons_append, List.dropWhile_cons, if_pos (h x (by simp))]
      exact ih (fun c hc => h c (by simp [hc]))

theorem getLast?_drop_of_lt (l : List Char) (k : Nat) (h : k < l.length) :
    (l.drop k).getLast? = l.getLast? := by
  have hne : l.drop k ≠ [] := by
    rw [Ne, List.drop_eq_nil_iff]
    omega
  conv_rhs => rw [← List.take_append_drop k l]
  rw [List.getLast?_append_of_ne_nil _ hne]

/-- Stripping trailing `'0'`s leaves a list alone when its last element
is not `'0'`. -/
theorem dropWhile_rev_eq_self_of_getLast (F : List Char) (c : Char)
    (h : F.getLast? = some c) (hc : c ≠ '0') :
    (F.reverse.dropWhile (fun x => x = '0')).reverse = F := by
  have hhead : F.reverse.head? = some c := by
    rw [List.head?_reverse]
    exact h
  obtain ⟨t, ht⟩ : ∃ t, F.reverse = c :: t := by
    cases hr : F.reverse with
    | nil => rw [hr] at hhead; cases hhead
    | cons x t =>
        rw [hr] at hhead
        simp at hhead
        exact ⟨t, by rw [hhead]⟩
  rw [ht, dropWhile_cons_false _ _ (by simp [hc]), ← ht, List.reverse_reverse]

theorem digitChar_ne_zero_char (d : Nat) (h1 : d < 10) (h2 : d ≠ 0) :
    digitChar d ≠ '0' := by
  interval_cases d <;> first | exact absurd rfl h2 | decide

theorem natChars_reverse (c : Nat) (hc : 0 < c) :
    (natChars c).reverse = (Nat.digits 10 c).map digitChar := by
  unfold natChars
  rw [natDigits_pos c hc, ← List.map_reverse, List.reverse_reverse]

theorem natChars_getLast? (c : Nat) (hc : 0 < c) :
    (natChars c).getLast? = some (digitChar (c % 10)) := by
  rw [← List.head?_reverse, natChars_reverse c hc,
    Nat.digits_def' (b := 10) (by norm_num) hc]
  rfl

/-- Printing `±0` with `n ∈ [1,6]` fractional zeros and trimming yields
the canonical signed zero. -/
theorem trim_render_zero (b : Bool) (n : Nat) (h1 : 1 ≤ n) (h6 : n ≤ 6) :
    trimTrailingZeros (pyDecimalStr ⟨b, 0, -(n : Int)⟩) =
      ⟨(if b then ['-'] else []) ++ ['0'] ++ '.' :: ['0']⟩ := by
  have hds : natChars 0 = ['0'] := rfl
  have hshape : (pyDecimalStr ⟨b, 0, -(n : Int)⟩).data =
      (if b then ['-'] else []) ++ ['0'] ++ '.' :: (List.replicate (n - 1) '0' ++ ['0']) := by
    have hn : (-(-(n : Int))).toNat = n := by omega
    have hcond : -(n : Int) ≤ 0 ∧ -6 ≤ -(n : Int) + 1 - 1 := by
      constructor
      · omega
      · omega
    unfold pyDecimalStr
    simp only [hds, List.length_singleton, Nat.cast_one, hn]
    rw [if_pos hcond, if_neg (by omega : ¬ (-(n : Int) = 0)),
      if_neg (by omega : ¬ (n < 1))]
    cases b <;> simp
  have htrim := trim_shaped (if b then ['-'] else []) ['0']
      (List.replicate (n - 1) '0' ++ ['0'])
      (by
        intro c hc
        rcases List.mem_append.1 hc with hm | hm
        · rw [List.eq_of_mem_replicate hm]; decide
        · simp at hm; rw [hm]; decide)
  have hzeros : (((List.replicate (n - 1) '0' ++ ['0']).reverse.dropWhile
      (fun c => c = '0')).reverse) = [] := by
    rw [dropWhile_all]
    · simp
    · intro c hc
      rw [List.mem_reverse] at hc
      rcases List.mem_append.1 hc with hm | hm
      · rw [List.eq_of_mem_replicate hm]; decide
      · simp at hm; rw [hm]; decide
  have heq : pyDecimalStr ⟨b, 0, -(n : Int)⟩ =
      ⟨(if b then ['-'] else []) ++ ['0'] ++ '.' :: (List.replicate (n - 1) '0' ++ ['0'])⟩ :=
    String.ext hshape
  rw [heq, htrim, hzeros]
  simp

/-- The positional rendering of `⟨b, C, -f⟩` (with `f ≥ 1`, adjusted
exponent at least -6), exposed as its character list. -/
theorem pyDecimalStr_plain_data (b : Bool) (C f : Nat) (hf : 1 ≤ f)
    (hadj : -6 ≤ -(f : Int) + ((natChars C).length : Int) - 1) :
    (pyDecimalStr ⟨b, C, -(f : Int)⟩).data =
      (if b then ['-'] else []) ++
        (if f < (natChars C).length then
          (natChars C).take ((natChars C).length - f) ++
            '.' :: (natChars C).drop ((natChars C).length - f)
         else '0' :: '.' :: (List.replicate (f - (natChars C).length) '0' ++ natChars C)) := by
  have hn : (-(-(f : Int))).toNat = f := by omega
  have hcond : -(f : Int) ≤ 0 ∧ -6 ≤ -(f : Int) + ((natChars C).length : Int) - 1 :=
    ⟨by omega, hadj⟩
  unfold pyDecimalStr
  simp only [hn]
  rw [if_pos hcond, if_neg (by omega : ¬ (-(f : Int) = 0))]
  cases b <;> simp

theorem numDigits_eq_length_natChars (n : Nat) : (natChars n).length = numDigits n := by
  simp [natChars, numDigits]

theorem natChars_mul_pow (c j : Nat) (hc : 0 < c) :
    natChars (c * 10 ^ j) = natChars c ++ List.replicate j '0' := by
  unfold natChars
  rw [natDigits_mul_pow c j hc, List.map_append, List.map_replicate]
  rfl

theorem natChars_rev_cons (c : Nat) (hc : 0 < c) :
    (natChars c).reverse =
      digitChar (c % 10) :: (Nat.digits 10 (c / 10)).map digitChar := by
  rw [natChars_reverse c hc, Nat.digits_def' (b := 10) (by norm_num) hc, List.map_cons]

theorem take_append_le {α : Type} (n : Nat) (l1 l2 : List α) (h : n ≤ l1.length) :
    (l1 ++ l2).take n = l1.take n := by
  induction l1 generalizing n with
  | nil =>
      simp at h
      simp [h]
  | cons x t ih =>
      cases n with
      | zero => rfl
      | succ k =>
          simp only [List.cons_append, List.take_succ_cons]
          rw [ih k (by simp at h; omega)]

theorem drop_append_le {α : Type} (n : Nat) (l1 l2 : List α) (h : n ≤ l1.length) :
    (l1 ++ l2).drop n = l1.drop n ++ l2 := by
  induction l1 generalizing n with
  | nil =>
      simp at h
      simp [h]
  | cons x t ih =>
      cases n with
      | zero => rfl
      | succ k =>
          simp only [List.cons_append, List.drop_succ_cons]
          exact ih k (by simp at h; omega)

/-- Printing a shifted coefficient `c·10^j` at exponent `-(m+j)` and
trimming gives exactly the printing of `c` at exponent `-m`, when `c`
does not itself end in `0` — quantizing a canonical decimal to a higher
precision and trimming reproduces the original text. -/
theorem trim_render_shift (b : Bool) (c m j : Nat)
    (hc : c % 10 ≠ 0) (hm : 1 ≤ m)
    (hadj : -6 ≤ -(m : Int) + ((natChars c).length : Int) - 1) :
    trimTrailingZeros (pyDecimalStr ⟨b, c * 10 ^ j, -((m + j : Nat) : Int)⟩) =
      pyDecimalStr ⟨b, c, -(m : Int)⟩ := by
  have hcpos : 0 < c := by
    rcases Nat.eq_zero_or_pos c with rfl | h
    · simp at hc
    · exact h
  have hds : natChars (c * 10 ^ j) = natChars c ++ List.replicate j '0' :=
    natChars_mul_pow c j hcpos
  have hlen : (natChars (c * 10 ^ j)).length = (natChars c).length + j := by
    rw [hds, List.length_append, List.length_replicate]
  have hlast : (natChars c).getLast? = some (digitChar (c % 10)) :=
    natChars_getLast? c hcpos
  have hdigne : digitChar (c % 10) ≠ '0' :=
    digitChar_ne_zero_char (c % 10) (Nat.mod_lt c (by norm_num)) hc
  have hadjshift : -6 ≤ -((m + j : Nat) : Int) + ((natChars (c * 10 ^ j)).length : Int) - 1 := by
    rw [hlen]
    push_cast
    omega
  have hshift := pyDecimalStr_plain_data b (c * 10 ^ j) (m + j) (by omega) hadjshift
  have htarget := pyDecimalStr_plain_data b c m hm hadj
  by_cases hlt : m < (natChars c).length
  · -- the point falls inside the digits of `c`
    have hlt2 : (m + j) < (natChars (c * 10 ^ j)).length := by omega
    have hsub : (natChars (c * 10 ^ j)).length - (m + j) = (natChars c).length - m := by
      omega
    rw [if_pos hlt2, hsub, hds,
      take_append_le _ _ _ (by omega),
      drop_append_le _ _ _ (by omega)] at hshift
    rw [if_pos hlt] at htarget
    have hstr : pyDecimalStr ⟨b, c * 10 ^ j, -((m + j : Nat) : Int)⟩ =
        ⟨(if b then ['-'] else []) ++ (natChars c).take ((natChars c).length - m) ++
          '.' :: ((natChars c).drop ((natChars c).length - m) ++ List.replicate j '0')⟩ := by
      apply String.ext
      rw [hshift]
      simp
    rw [hstr, trim_shaped _ _ _ (by
      intro x hx
      rcases List.mem_append.1 hx with hm2 | hm2
      · exact natChars_all_digits c x (List.mem_of_mem_drop hm2)
      · rw [List.eq_of_mem_replicate hm2]; decide)]
    have hF1 : ((((natChars c).drop ((natChars c).length - m) ++
        List.replicate j '0').reverse.dropWhile (fun x => x = '0')).reverse) =
        (natChars c).drop ((natChars c).length - m) := by
      rw [List.reverse_append, List.reverse_replicate,
        dropWhile_append_of_all _ _ (fun x hx => by
          rw [List.eq_of_mem_replicate hx]; decide)]
      have hglast : ((natChars c).drop ((natChars c).length - m)).getLast? =
          some (digitChar (c % 10)) := by
        rw [getLast?_drop_of_lt _ _ (by omega)]
        exact hlast
      exact dropWhile_rev_eq_self_of_getLast _ _ hglast hdigne
    rw [hF1]
    have hne2 : (natChars c).drop ((natChars c).length - m) ≠ [] := by
      rw [Ne, List.drop_eq_nil_iff]
      omega
    have hcondF : ((natChars c).drop ((natChars c).length - m)).isEmpty = false := by
      cases hdrop : (natChars c).drop ((natChars c).length - m) with
      | nil => exact absurd hdrop hne2
      | cons x t => rfl
    apply String.ext
    rw [htarget]
    simp [hcondF]
  · -- the digits of `c` sit entirely inside the fraction
    have hge : (natChars c).length ≤ m := by omega
    have hlt2 : ¬ ((m + j) < (natChars (c * 10 ^ j)).length) := by omega
    have hsub : (m + j) - (natChars (c * 10 ^ j)).length = m - (natChars c).length := by
      omega
    rw [if_neg hlt2, hsub, hds] at hshift
    rw [if_neg hlt] at htarget
    have hassoc : List.replicate (m - (natChars c).length) '0' ++
        (natChars c ++ List.replicate j '0') =
        (List.replicate (m - (natChars c).length) '0' ++ natChars c) ++
          List.replicate j '0' := by
      simp [List.append_assoc]
    have hstr : pyDecimalStr ⟨b, c * 10 ^ j, -((m + j : Nat) : Int)⟩ =
        ⟨(if b then ['-'] else []) ++ ['0'] ++
          '.' :: (List.replicate (m - (natChars c).length) '0' ++ natChars c ++
            List.replicate j '0')⟩ := by
      apply String.ext
      rw [hshift]
      simp
    rw [hstr, trim_shaped _ _ _ (by
      intro x hx
      rcases List.mem_append.1 hx with hm2 | hm2
      · rcases List.mem_append.1 hm2 with hm3 | hm3
        · rw [List.eq_of_mem_replicate hm3]; decide
        · exact natChars_all_digits c x hm3
      · rw [List.eq_of_mem_replicate hm2]; decide)]
    have hF1 : (((List.replicate (m - (natChars c).length) '0' ++ natChars c ++
        List.replicate j '0').reverse.dropWhile (fun x => x = '0')).reverse) =
        List.replicate (m - (natChars c).length) '0' ++ natChars c := by
      have hglast : (List.replicate (m - (natChars c).length) '0' ++ natChars c).getLast? =
          some (digitChar (c % 10)) := by
        rw [List.getLast?_append_of_ne_nil _ (natChars_ne_nil c)]
        exact hlast
      rw [List.reverse_append, List.reverse_replicate,
        dropWhile_append_of_all _ _ (fun x hx => by
          rw [List.eq_of_mem_replicate hx]; decide)]
      exact dropWhile_rev_eq_self_of_getLast _ _ hglast hdigne
    rw [hF1]
    have hcondF : (List.replicate (m - (natChars c).length) '0' ++ natChars c).isEmpty = false := by
      simp [List.isEmpty_iff, natChars_ne_nil]
    apply String.ext
    rw [htarget]
    simp [hcondF]

/-! ## Theorems: unfolding `_format_decimal` on parsed finite values -/

theorem format_decimal_finite (v : PyValue) (d : PyDecimal) (n : Nat)
    (hd : decOfValue v = .finite d) :
    format_decimal v n =
      (match pyQuantize d n with
       | Option.none => ""
       | some q => trimTrailingZeros (pyDecimalStr q)) := by
  have hna : pyIsNA v = false := by
    cases v <;> first | rfl | (simp [decOfValue] at hd)
  have hinf : pyIsInf v = false := by
    cases v <;> first | rfl | (simp [decOfValue] at hd)
  unfold format_decimal
  rw [hna, hinf, hd]
  simp

/-! ## Theorems: `ROUND_HALF_UP` really rounds half up

The characterisation behind claim C1: a successful quantize keeps the
sign, fixes the exponent at `-n`, moves the value by at most half an
ulp (`10^-n / 2`), and an exact half-ulp move goes to the larger
magnitude. -/

theorem pyQuantize_eq (d : PyDecimal) (n : Nat) (q : PyDecimal)
    (h : pyQuantize d n = some q) :
    q.sign = d.sign ∧ q.exp = -(n : Int) ∧
      (if 0 ≤ d.exp + (n : Int) then q.coeff = d.coeff * 10 ^ (d.exp + (n : Int)).toNat
       else q.coeff = d.coeff / 10 ^ (-(d.exp + (n : Int))).toNat +
         (if 10 ^ (-(d.exp + (n : Int))).toNat ≤ 2 * (d.coeff % 10 ^ (-(d.exp + (n : Int))).toNat)
          then 1 else 0)) := by
  unfold pyQuantize at h
  by_cases h1 : 1000026 < n
  · rw [if_pos h1] at h
    cases h
  · rw [if_neg h1] at h
    by_cases h2 : 28 < numDigits (if 0 ≤ d.exp + (n : Int)
        then d.coeff * 10 ^ (d.exp + (n : Int)).toNat
        else d.coeff / 10 ^ (-(d.exp + (n : Int))).toNat +
          (if 10 ^ (-(d.exp + (n : Int))).toNat ≤ 2 * (d.coeff % 10 ^ (-(d.exp + (n : Int))).toNat)
           then 1 else 0))
    · simp only [if_pos h2] at h
      cases h
    · simp only [if_neg h2, Option.some.injEq] at h
      subst h
      refine ⟨rfl, rfl, ?_⟩
      by_cases h3 : 0 ≤ d.exp + (n : Int) <;> simp [h3]

set_option maxHeartbeats 1000000 in
theorem pyQuantize_half_up (d : PyDecimal) (n : Nat) (q : PyDecimal)
    (h : pyQuantize d n = some q) :
    q.sign = d.sign ∧ q.exp = -(n : Int) ∧
      (∃ k : ℤ, q.val = (k : ℚ) / 10 ^ n) ∧
      |q.val - d.val| ≤ 1 / (2 * 10 ^ n) ∧
      (|q.val - d.val| = 1 / (2 * 10 ^ n) → |d.val| < |q.val|) := by
  obtain ⟨hsign, hexp, hcoeff⟩ := pyQuantize_eq d n q h
  have h10 : (10 : ℚ) ≠ 0 := by norm_num
  have hN : (0 : ℚ) < 10 ^ n := by positivity
  have habs : ∀ x : ℚ, |(if d.sign then -1 else 1) * x| = |x| := by
    intro x
    cases hs : d.sign <;> simp
  have hqv : q.val = (if d.sign then -1 else 1) * ((q.coeff : ℚ) / 10 ^ n) := by
    unfold PyDecimal.val
    rw [hsign, hexp, zpow_neg, zpow_natCast]
    ring
  have hdv : d.val = (if d.sign then -1 else 1) * ((d.coeff : ℚ) * 10 ^ d.exp) := by
    unfold PyDecimal.val
    ring
  have hdiff : |q.val - d.val| = |(q.coeff : ℚ) / 10 ^ n - (d.coeff : ℚ) * 10 ^ d.exp| := by
    rw [hqv, hdv, ← mul_sub, habs]
  have habsq : |q.val| = (q.coeff : ℚ) / 10 ^ n := by
    rw [hqv, habs, abs_of_nonneg (by positivity)]
  have habsd : |d.val| = (d.coeff : ℚ) * 10 ^ d.exp := by
    have hepos : (0 : ℚ) < (10 : ℚ) ^ d.exp := zpow_pos (by norm_num) _
    rw [hdv, habs, abs_of_nonneg (by positivity)]
  refine ⟨hsign, hexp, ⟨(if d.sign then -q.coeff else q.coeff : ℤ), by
    rw [hqv]
    cases hs : d.sign <;> simp <;> push_cast <;> ring⟩, ?_⟩
  by_cases hA : 0 ≤ d.exp + (n : Int)
  · -- exact rescaling: the value is unchanged
    rw [if_pos hA] at hcoeff
    have hpow : ((10 : ℚ) ^ (d.exp + (n : Int)).toNat) = (10 : ℚ) ^ d.exp * 10 ^ n := by
      rw [← zpow_natCast (10 : ℚ) ((d.exp + (n : Int)).toNat), Int.toNat_of_nonneg hA,
        zpow_add₀ h10, zpow_natCast]
    have hAB : (q.coeff : ℚ) / 10 ^ n - (d.coeff : ℚ) * 10 ^ d.exp = 0 := by
      rw [hcoeff]
      push_cast
      rw [hpow]
      field_simp
      ring
    rw [hdiff, hAB, abs_zero]
    constructor
    · positivity
    · intro h0
      exfalso
      have hpos : (0 : ℚ) < 1 / (2 * 10 ^ n) := by positivity
      linarith
  · -- genuine rounding step
    rw [if_neg hA] at hcoeff
    push_neg at hA
    set sh := (-(d.exp + (n : Int))).toNat with hshdef
    set S := 10 ^ sh with hSdef
    have hSnat : 0 < S := by positivity
    set Q := d.coeff / S with hQdef
    set R := d.coeff % S with hRdef
    have hRS : R < S := Nat.mod_lt _ hSnat
    have hdm : S * Q + R = d.coeff := by
      rw [hQdef, hRdef]
      exact Nat.div_add_mod d.coeff S
    have hSq : ((S : ℚ)) = (10 : ℚ) ^ sh := by
      rw [hSdef]
      push_cast
      rfl
    have hSqpos : (0 : ℚ) < (S : ℚ) := by
      exact_mod_cast hSnat
    have hshZ : ((sh : Nat) : Int) = -(d.exp + (n : Int)) := by
      rw [hshdef]
      exact Int.toNat_of_nonneg (by omega)
    have hexpB : (10 : ℚ) ^ d.exp = 1 / (10 ^ n * (S : ℚ)) := by
      rw [hSq, ← zpow_natCast (10 : ℚ) n, ← zpow_natCast (10 : ℚ) sh, ← zpow_add₀ h10,
        one_div, ← zpow_neg]
      congr 1
      omega
    have hcast : (d.coeff : ℚ) = (S : ℚ) * (Q : ℚ) + (R : ℚ) := by
      exact_mod_cast hdm.symm
    by_cases hcarry : S ≤ 2 * R
    · -- the fraction is at least a half: round up
      rw [if_pos hcarry] at hcoeff
      have hSR : (R : ℚ) ≤ (S : ℚ) := by exact_mod_cast hRS.le
      have h2R : (S : ℚ) ≤ 2 * (R : ℚ) := by exact_mod_cast hcarry
      have hdiff2 : |q.val - d.val| = ((S : ℚ) - (R : ℚ)) / (10 ^ n * (S : ℚ)) := by
        rw [hdiff, hcoeff, hexpB]
        push_cast
        rw [hcast]
        rw [show ((Q : ℚ) + 1) / 10 ^ n - ((S : ℚ) * Q + R) * (1 / (10 ^ n * S)) =
            ((S : ℚ) - R) / (10 ^ n * S) from by field_simp; ring]
        rw [abs_of_nonneg (by
          apply div_nonneg
          · linarith
          · positivity)]
      constructor
      · rw [hdiff2, div_le_div_iff₀ (by positivity) (by positivity)]
        nlinarith
      · intro htie
        rw [hdiff2] at htie
        have hcross : ((S : ℚ) - (R : ℚ)) * (2 * 10 ^ n) = 1 * (10 ^ n * (S : ℚ)) :=
          (div_eq_div_iff (by positivity) (by positivity)).1 htie
        have hS2R : (S : ℚ) = 2 * (R : ℚ) := by nlinarith
        have hRpos : (0 : ℚ) < (R : ℚ) := by nlinarith
        rw [habsq, habsd, hcoeff, hexpB]
        push_cast
        rw [hcast, mul_one_div, div_lt_div_iff₀ (by positivity) (by positivity)]
        have hexp2 : ((Q : ℚ) + 1) * (10 ^ n * (S : ℚ)) =
            ((S : ℚ) * Q + R) * 10 ^ n + 10 ^ n * ((S : ℚ) - R) := by ring
        have hpos2 : (0 : ℚ) < 10 ^ n * (R : ℚ) := mul_pos hN hRpos
        rw [hexp2]
        have hSR2 : (S : ℚ) - R = R := by linarith
        rw [hSR2]
        linarith
    · -- the fraction is below a half: round down
      rw [if_neg hcarry] at hcoeff
      rw [Nat.add_zero] at hcoeff
      push_neg at hcarry
      have h2R : 2 * (R : ℚ) < (S : ℚ) := by exact_mod_cast hcarry
      have hdiff2 : |q.val - d.val| = (R : ℚ) / (10 ^ n * (S : ℚ)) := by
        rw [hdiff, hcoeff, hexpB]
        push_cast
        rw [hcast]
        rw [show ((Q : ℚ)) / 10 ^ n - ((S : ℚ) * Q + R) * (1 / (10 ^ n * S)) =
            -((R : ℚ) / (10 ^ n * S)) from by field_simp; ring]
        rw [abs_neg, abs_of_nonneg (by positivity)]
      constructor
      · rw [hdiff2, div_le_div_iff₀ (by positivity) (by positivity)]
        nlinarith
      · intro htie
        exfalso
        rw [hdiff2] at htie
        have hcross : (R : ℚ) * (2 * 10 ^ n) = 1 * (10 ^ n * (S : ℚ)) :=
          (div_eq_div_iff (by positivity) (by positivity)).1 htie
        nlinarith

/-! ## Theorems: the table model — lookup/assignment frame lemmas -/

theorem find?_map_set_self (l : List (String × Column)) (name : String) (col : Column)
    (h : l.any (fun p => p.1 = name) = true) :
    ((l.map (fun p => if p.1 = name then (p.1, col) else p)).find?
      (fun p => p.1 = name)).map (fun p => p.2) = some col := by
  induction l with
  | nil => simp at h
  | cons x t ih =>
      by_cases hx : x.1 = name
      · simp [hx]
      · rw [List.map_cons, if_neg hx, List.find?_cons_of_neg _ (by simp [hx])]
        apply ih
        simp at h
        rcases h with h1 | h1
        · exact absurd h1 hx
        · simp [h1]

theorem find?_map_set_ne (l : List (String × Column)) (name w : String) (col : Column)
    (hne : name ≠ w) :
    (l.map (fun p => if p.1 = name then (p.1, col) else p)).find? (fun p => p.1 = w) =
      l.find? (fun p => p.1 = w) := by
  induction l with
  | nil => rfl
  | cons x t ih =>
      by_cases hx : x.1 = name
      · rw [List.map_cons, if_pos hx, List.find?_cons_of_neg _ (by simp [hx, hne]),
          List.find?_cons_of_neg _ (by simp [hx, hne]), ih]
      · rw [List.map_cons, if_neg hx]
        by_cases hw : x.1 = w
        · rw [List.find?_cons_of_pos _ (by simp [hw]), List.find?_cons_of_pos _ (by simp [hw])]
        · rw [List.find?_cons_of_neg _ (by simp [hw]), List.find?_cons_of_neg _ (by simp [hw]), ih]

theorem Table.lookup_setCol_self (t : Table) (name : String) (col : Column) :
    (t.setCol name col).lookup name = some col := by
  unfold Table.setCol Table.lookup
  by_cases hany : t.cols.any (fun p => p.1 = name) = true
  · rw [if_pos hany]
    exact find?_map_set_self t.cols name col hany
  · rw [if_neg hany]
    have hnone : t.cols.find? (fun p => p.1 = name) = none := by
      rw [List.find?_eq_none]
      intro x hx
      simp only [Bool.not_eq_true, decide_eq_false_iff_not]
      rw [Bool.not_eq_true] at hany
      rw [List.any_eq_false] at hany
      have := hany x hx
      simpa using this
    show ((t.cols ++ [(name, col)]).find? (fun p => p.1 = name)).map (fun p => p.2) = some col
    rw [List.find?_append, hnone]
    simp

theorem Table.lookup_setCol_ne (t : Table) (name w : String) (col : Column)
    (hne : name ≠ w) :
    (t.setCol name col).lookup w = t.lookup w := by
  unfold Table.setCol Table.lookup
  by_cases hany : t.cols.any (fun p => p.1 = name) = true
  · rw [if_pos hany, find?_map_set_ne t.cols name w col hne]
  · rw [if_neg hany]
    show ((t.cols ++ [(name, col)]).find? (fun p => p.1 = w)).map (fun p => p.2) = _
    rw [List.find?_append]
    have h2 : [(name, col)].find? (fun p => p.1 = w) = none := by
      simp [hne]
    rw [h2]
    simp

theorem Table.lookup_setCol_ne_none (t : Table) (name w : String) (col : Column)
    (h : (t.setCol name col).lookup w = Option.none) : t.lookup w = Option.none := by
  by_cases hw : name = w
  · subst hw
    rw [Table.lookup_setCol_self] at h
    cases h
  · rw [Table.lookup_setCol_ne t name w col hw] at h
    exact h

/-! ## Theorems: the column loop — success, error, and frame -/

theorem applyCols_ok (t : Table) (cols : List String) (n : Nat)
    (h : ∀ c ∈ cols, t.lookup c ≠ Option.none) :
    ∃ t2, applyCols t cols n = .ok t2 := by
  induction cols generalizing t with
  | nil => exact ⟨t, rfl⟩
  | cons c rest ih =>
      have hc := h c (by simp)
      cases hlook : t.lookup c with
      | none => exact absurd hlook hc
      | some col =>
          unfold applyCols
          rw [hlook]
          apply ih
          intro w hw
          by_cases hcw : c = w
          · subst hcw
            rw [Table.lookup_setCol_self]
            simp
          · rw [Table.lookup_setCol_ne _ _ _ _ hcw]
            exact h w (by simp [hw])

theorem applyCols_frame (t : Table) (cols : List String) (n : Nat) (t2 : Table)
    (h : applyCols t cols n = .ok t2) (w : String) (hw : w ∉ cols) :
    t2.lookup w = t.lookup w := by
  induction cols generalizing t with
  | nil =>
      unfold applyCols at h
      cases h
      rfl
  | cons c rest ih =>
      unfold applyCols at h
      cases hlook : t.lookup c with
      | none => rw [hlook] at h; cases h
      | some col =>
          rw [hlook] at h
          have hwc : c ≠ w := by
            intro hcw
            exact hw (by simp [hcw])
          rw [ih _ h (by intro hmem; exact hw (by simp [hmem])),
            Table.lookup_setCol_ne _ _ _ _ hwc]

theorem applyCols_missing (t : Table) (cols : List String) (n : Nat)
    (h : ∃ c ∈ cols, t.lookup c = Option.none) :
    ∃ c, applyCols t cols n = .error (.keyError c) ∧ t.lookup c = Option.none := by
  induction cols generalizing t with
  | nil =>
      obtain ⟨c, hc, _⟩ := h
      cases hc
  | cons c rest ih =>
      cases hlook : t.lookup c with
      | none =>
          refine ⟨c, ?_, hlook⟩
          unfold applyCols
          rw [hlook]
      | some col =>
          obtain ⟨c2, hc2mem, hc2⟩ := h
          have hc2rest : c2 ∈ rest := by
            rcases List.mem_cons.1 hc2mem with rfl | hm
            · rw [hlook] at hc2; cases hc2
            · exact hm
          have hc2set : (t.setCol c (formatColumn col n)).lookup c2 = Option.none := by
            have hne : c ≠ c2 := by
              intro hcc
              subst hcc
              rw [hlook] at hc2
              cases hc2
            rw [Table.lookup_setCol_ne _ _ _ _ hne]
            exact hc2
          obtain ⟨c3, hc3, hc3none⟩ := ih (t.setCol c (formatColumn col n)) ⟨c2, hc2rest, hc2set⟩
          refine ⟨c3, ?_, Table.lookup_setCol_ne_none _ _ _ _ hc3none⟩
          unfold applyCols
          rw [hlook]
          exact hc3

theorem col_to_str_frame (t : Table) (cols : List String) (w : String) (hw : w ∉ cols) :
    (col_to_str t cols).lookup w = t.lookup w := by
  induction cols generalizing t with
  | nil => rfl
  | cons c rest ih =>
      have hwc : c ≠ w := by
        intro hcw
        exact hw (by simp [hcw])
      have hstep : ∀ t3 : Table,
          (match t3.lookup c with
           | Option.none => t3
           | some col => if col.dtype = Dtype.string then t3
              else t3.setCol c ⟨Dtype.string, col.values⟩).lookup w = t3.lookup w := by
        intro t3
        cases hl : t3.lookup c with
        | none => rfl
        | some col =>
            by_cases hd : col.dtype = Dtype.string
            · simp [hd]
            · dsimp only
              rw [if_neg hd, Table.lookup_setCol_ne _ _ _ _ hwc]
      have hfold : col_to_str t (c :: rest) = col_to_str
          (match t.lookup c with
           | Option.none => t
           | some col => if col.dtype = Dtype.string then t
              else t.setCol c ⟨Dtype.string, col.values⟩) rest := by
        unfold col_to_str
        rw [List.foldl_cons]
      rw [hfold, ih _ (by intro hm; exact hw (by simp [hm])), hstep]

/-! ## Theorems: shape predicates on rendered-and-trimmed strings -/

theorem stripLeadMinus_shaped (b : Bool) (l : List Char) (hl : l ≠ [])
    (hhead : ∀ h : l ≠ [], l.head h ≠ '-') :
    stripLeadMinus ((if b then ['-'] else []) ++ l) = l := by
  cases b
  · simp only [Bool.false_eq_true, if_false, List.nil_append]
    cases l with
    | nil => rfl
    | cons x t =>
        have hx : x ≠ '-' := by
          have := hhead (by simp)
          simpa using this
        simp only [stripLeadMinus]
        rw [if_neg hx]
  · simp only [if_pos rfl]
    cases l with
    | nil => exact absurd rfl hl
    | cons x t => rfl

theorem isFmtDecimal_shaped (b : Bool) (I F : List Char) (hI : I ≠ []) (hF : F ≠ [])
    (hIdig : ∀ c ∈ I, isDigitChar c = true) (hFdig : ∀ c ∈ F, isDigitChar c = true) :
    isFmtDecimal ⟨(if b then ['-'] else []) ++ I ++ '.' :: F⟩ = true := by
  obtain ⟨hd, tl, rfl⟩ : ∃ hd tl, I = hd :: tl := by
    cases I with
    | nil => exact absurd rfl hI
    | cons x t => exact ⟨x, t, rfl⟩
  have hbody : stripLeadMinus
      ((⟨(if b then ['-'] else []) ++ (hd :: tl) ++ '.' :: F⟩ : String)).data
      = (hd :: tl) ++ '.' :: F := by
    rw [show ((⟨(if b then ['-'] else []) ++ (hd :: tl) ++ '.' :: F⟩ : String)).data
        = (if b then ['-'] else []) ++ ((hd :: tl) ++ '.' :: F) from by simp]
    exact stripLeadMinus_shaped b _ (by simp)
      (fun h => by simpa using isDigitChar_ne hd (hIdig hd (by simp)) '-' (by decide))
  unfold isFmtDecimal
  simp only [hbody]
  rw [takeWhile_append_all _ '.' _ hIdig (by decide),
    dropWhile_append_all _ '.' _ hIdig (by decide)]
  simp [hF, List.all_eq_true.2 hFdig]

theorem fracCount_shaped (sgn I F : List Char)
    (hsgn : ∀ c ∈ sgn, c ≠ '.') (hIdig : ∀ c ∈ I, isDigitChar c = true) :
    fracCount ⟨sgn ++ I ++ '.' :: F⟩ = F.length := by
  unfold fracCount
  rw [show ((⟨sgn ++ I ++ '.' :: F⟩ : String)).data = (sgn ++ I) ++ '.' :: F from by simp]
  rw [dropWhile_append_all _ '.' _ (by
    intro c hc
    simp only [ne_eq, decide_eq_true_eq]
    rcases List.mem_append.1 hc with hm | hm
    · exact hsgn c hm
    · exact isDigitChar_ne c (hIdig c hm) '.' (by decide)) (by simp)]
  simp

/-- The printing of a decimal with exponent 0: just the signed digits. -/
theorem pyDecimalStr_int_data (q : PyDecimal) (hexp : q.exp = 0) :
    (pyDecimalStr q).data = (if q.sign then ['-'] else []) ++ natChars q.coeff := by
  have hlen := length_natDigits_pos q.coeff
  have hcond : q.exp ≤ 0 ∧ -6 ≤ q.exp + ((natChars q.coeff).length : Int) - 1 := by
    constructor
    · omega
    · rw [hexp]
      have : 1 ≤ (natChars q.coeff).length := by
        unfold natChars
        rw [List.length_map]
        omega
      omega
  simp only [pyDecimalStr]
  rw [if_pos hcond, if_pos hexp]
  cases hq : q.sign <;> simp

/-- A trimmed output never ends in the decimal point. -/
theorem trim_never_ends_dot (s : String) :
    strEndsWithDot (trimTrailingZeros s) = false := by
  unfold trimTrailingZeros
  by_cases hdot : strContainsDot s = true
  · simp only [hdot, if_true]
    by_cases hend : strEndsWithDot (pyRstripZeros s) = true
    · simp only [hend, if_true]
      unfold strEndsWithDot
      rw [show ((⟨(pyRstripZeros s).data ++ ['0']⟩ : String)).data
          = (pyRstripZeros s).data ++ '0' :: [] from by simp, List.getLast?_append_cons]
      simp
    · simp only [hend, if_false]
      rw [Bool.not_eq_true] at hend
      exact hend
  · simp only [hdot, if_false]
    cases hce : strEndsWithDot s with
    | false =>
        simp only [Bool.false_eq_true, if_false]
        exact hce
    | true =>
        exfalso
        unfold strEndsWithDot at hce
        have hmem : '.' ∈ s.data :=
          List.mem_of_getLast?_eq_some (by simpa using hce)
        unfold strContainsDot at hdot
        rw [Bool.not_eq_true] at hdot
        have : s.data.contains '.' = true := by
          simpa using hmem
        rw [this] at hdot
        cases hdot

/-- A quiet-NaN rendering never contains the decimal point. -/
theorem pyNaNStr_no_dot (b : Bool) (p : Nat) : strContainsDot (pyNaNStr b p) = false := by
  unfold strContainsDot pyNaNStr
  have hmem : '.' ∉ (if b then ['-'] else []) ++ 'N' :: 'a' :: 'N' ::
      (if p = 0 then [] else natChars p) := by
    intro hm
    rcases List.mem_append.1 hm with h1 | h1
    · cases b
      · simp at h1
      · simp at h1
    · by_cases hp : p = 0
      · rw [if_pos hp] at h1
        simp at h1
      · rw [if_neg hp] at h1
        simp at h1
        exact absurd (natChars_all_digits p '.' h1) (by decide)
  simpa using hmem

/-- The trailing-zero block leaves a quiet-NaN rendering alone. -/
theorem trim_pyNaNStr (b : Bool) (p : Nat) :
    trimTrailingZeros (pyNaNStr b p) = pyNaNStr b p := by
  unfold trimTrailingZeros
  rw [pyNaNStr_no_dot]
  simp

/-- Either the formatter returns the sentinel, or the value parsed to a
quiet NaN and the output is its (trimmed) rendering with the payload
clamped to 28 digits, or its output is the trim of the printed
quantized decimal of the parsed value. -/
theorem format_decimal_cases (v : PyValue) (n : Nat) :
    format_decimal v n = "" ∨
      (∃ (b : Bool) (p : Nat), decOfValue v = .qnan b p ∧
        format_decimal v n = trimTrailingZeros (pyNaNStr b (p % 10 ^ 28))) ∨
      ∃ d q : PyDecimal, decOfValue v = .finite d ∧ pyQuantize d n = some q ∧
        format_decimal v n = trimTrailingZeros (pyDecimalStr q) := by
  unfold format_decimal
  by_cases h1 : pyIsNA v = true
  · rw [h1]
    simp
  · rw [Bool.not_eq_true] at h1
    rw [h1]
    by_cases h2 : pyIsInf v = true
    · rw [h2]
      simp
    · rw [Bool.not_eq_true] at h2
      rw [h2]
      simp only [Bool.false_eq_true, if_false]
      cases hd : decOfValue v with
      | special => simp
      | invalid => simp
      | qnan b p =>
          right; left
          exact ⟨b, p, rfl, by simp⟩
      | finite d =>
          cases hq : pyQuantize d n with
          | none => simp [hq]
          | some q =>
              right; right
              exact ⟨d, q, rfl, hq, by simp [hq]⟩

/-- A whole number `K ≠ 0` quantized to `n ≥ 1` places prints as
`K.00…0` and trims to exactly `K.0`. -/
theorem trim_render_whole (b : Bool) (K n : Nat) (hK : K ≠ 0) (hn : 1 ≤ n) :
    trimTrailingZeros (pyDecimalStr ⟨b, K * 10 ^ n, -(n : Int)⟩) =
      ⟨(if b then ['-'] else []) ++ natChars K ++ ['.', '0']⟩ := by
  have hKpos : 0 < K := Nat.pos_of_ne_zero hK
  have hds : natChars (K * 10 ^ n) = natChars K ++ List.replicate n '0' :=
    natChars_mul_pow K n hKpos
  have hlen : (natChars (K * 10 ^ n)).length = (natChars K).length + n := by
    rw [hds, List.length_append, List.length_replicate]
  have hKlen : 1 ≤ (natChars K).length := by
    have := natChars_ne_nil K
    cases hcK : natChars K with
    | nil => exact absurd hcK this
    | cons x t => simp [hcK]
  have hadj : -6 ≤ -(n : Int) + ((natChars (K * 10 ^ n)).length : Int) - 1 := by
    rw [hlen]
    push_cast
    omega
  have hdata := pyDecimalStr_plain_data b (K * 10 ^ n) n hn hadj
  rw [if_pos (by omega : n < (natChars (K * 10 ^ n)).length), hds,
    show (natChars K ++ List.replicate n '0').length - n = (natChars K).length from by
      rw [List.length_append, List.length_replicate]; omega,
    take_append_le _ _ _ le_rfl, List.take_length,
    drop_append_le _ _ _ le_rfl, List.drop_length, List.nil_append] at hdata
  have hstr : pyDecimalStr ⟨b, K * 10 ^ n, -(n : Int)⟩ =
      ⟨(if b then ['-'] else []) ++ natChars K ++ '.' :: List.replicate n '0'⟩ := by
    apply String.ext
    rw [hdata]
    simp
  rw [hstr, trim_shaped _ _ _ (fun c hc => by
    rw [List.eq_of_mem_replicate hc]; decide)]
  have hzeros : ((List.replicate n '0').reverse.dropWhile (fun c => c = '0')).reverse = [] := by
    rw [List.reverse_replicate, dropWhile_all _ (fun c hc => by
      rw [List.eq_of_mem_replicate hc]; decide)]
    rfl
  rw [hzeros]
  simp

/-! ## Claim theorems -/

/-- C1: for every NumericLike value (every finite decimal the pipeline
can produce) and every precision, a successful quantize fixes exactly
`n` fractional digits (`exp = -n`, value a multiple of `10^-n`),
preserves the sign, and rounds half-up: the value moves by at most half
an ulp, and an exact tie moves away from zero to the larger magnitude.
The spec's four examples evaluate as stated: `format(2.5, 0) = "3"`,
`format(1.5, 0) = "2"`, `format(2.25, 1) = "2.3"`,
`format(-0.999, 2) = "-1.0"`. -/
theorem C1_round_half_up :
    (∀ (d : PyDecimal) (n : Nat) (q : PyDecimal), pyQuantize d n = some q →
      q.sign = d.sign ∧ q.exp = -(n : Int) ∧
        (∃ k : ℤ, q.val = (k : ℚ) / 10 ^ n) ∧
        |q.val - d.val| ≤ 1 / (2 * 10 ^ n) ∧
        (|q.val - d.val| = 1 / (2 * 10 ^ n) → |d.val| < |q.val|)) ∧
    format_decimal (.float ⟨false, 25, -1⟩) 0 = "3" ∧
    format_decimal (.float ⟨false, 15, -1⟩) 0 = "2" ∧
    format_decimal (.float ⟨false, 225, -2⟩) 1 = "2.3" ∧
    format_decimal (.float ⟨true, 999, -3⟩) 2 = "-1.0" :=
  ⟨pyQuantize_half_up, by decide, by decide, by decide, by decide⟩

/-- C1 witness: the general statement applied at `2.5` quantized to 0
places, where the rounded decimal is `3`. -/
theorem C1_round_half_up_witness :
    pyQuantize ⟨false, 25, -1⟩ 0 = some ⟨false, 3, 0⟩ ∧
      ((⟨false, 3, 0⟩ : PyDecimal).sign = (⟨false, 25, -1⟩ : PyDecimal).sign ∧
       (⟨false, 3, 0⟩ : PyDecimal).exp = -((0 : Nat) : Int) ∧
       (∃ k : ℤ, (⟨false, 3, 0⟩ : PyDecimal).val = (k : ℚ) / 10 ^ (0 : Nat)) ∧
       |(⟨false, 3, 0⟩ : PyDecimal).val - (⟨false, 25, -1⟩ : PyDecimal).val| ≤
          1 / (2 * 10 ^ (0 : Nat)) ∧
       (|(⟨false, 3, 0⟩ : PyDecimal).val - (⟨false, 25, -1⟩ : PyDecimal).val| =
            1 / (2 * 10 ^ (0 : Nat)) →
          |(⟨false, 25, -1⟩ : PyDecimal).val| < |(⟨false, 3, 0⟩ : PyDecimal).val|)) :=
  ⟨by decide, C1_round_half_up.1 ⟨false, 25, -1⟩ 0 ⟨false, 3, 0⟩ (by decide)⟩

/-- C2: the scalar formatter is total with the empty-string sentinel:
null, NaN and both infinities format to `""` at every precision;
malformed strings such as `"abc"` and `"12.34.56"` format to `""`; and
formatting a column is an element-wise map, so each position of the
output depends only on the value at that position — one bad value
degrades only its own cell. -/
theorem C2_totality_and_containment :
    (∀ n : Nat, format_decimal PyValue.none n = "" ∧ format_decimal .nan n = "" ∧
      format_decimal .inf n = "" ∧ format_decimal .negInf n = "") ∧
    (∀ n : Nat, format_decimal (.str "abc") n = "" ∧
      format_decimal (.str "12.34.56") n = "") ∧
    (∀ (l : List PyValue) (n i : Nat),
      ((formatColumn ⟨Dtype.float64, l⟩ n).values)[i]? =
        (l[i]?).map (fun x => PyValue.str (format_decimal x n))) :=
  ⟨fun _ => ⟨rfl, rfl, rfl, rfl⟩,
   fun _ => ⟨by rfl, by rfl⟩,
   fun l n i => by simp [formatColumn]⟩

/-- C5: the formatter goes through the value's shortest round-trip text
and reparses it as an exact decimal, so the binary representation error
of `0.1 + 0.2` never reaches the output: both the text of the binary
sum and the decimal it denotes format to `"0.3"` at 2 places, although
that text itself is not `"0.3"`. -/
theorem C5_binary_float_immunity :
    format_decimal (.str "0.30000000000000004") 2 = "0.3" ∧
    format_decimal (.float ⟨false, 30000000000000004, -17⟩) 2 = "0.3" ∧
    ("0.30000000000000004" : String) ≠ "0.3" :=
  ⟨by decide, by decide, by decide⟩

/-- C3 counterexample: at `n = 0` the output `"3"` has no decimal
point; at `n = 7` the input `"0.0000001"` prints in scientific notation
`"1E-7"`; and the quiet-NaN string `"nan"` propagates through
`quantize` and prints as `"NaN"`.  All three are nonempty and fail
`-?\d+\.\d+`. -/
theorem C3_counterexample :
    format_decimal (.float ⟨false, 25, -1⟩) 0 = "3" ∧
    isFmtDecimal "3" = false ∧ ("3" : String) ≠ "" ∧
    format_decimal (.str "0.0000001") 7 = "1E-7" ∧
    isFmtDecimal "1E-7" = false ∧ ("1E-7" : String) ≠ "" ∧
    format_decimal (.str "nan") 2 = "NaN" ∧
    isFmtDecimal "NaN" = false ∧ ("NaN" : String) ≠ "" :=
  ⟨by decide, by decide, by decide, by decide, by decide, by decide,
    by decide, by decide, by decide⟩

/-- C4 counterexample: the whole-number value `0` at `n = 7` prints as
`"0E-7"` — it does not receive the one-fractional-zero form `"0.0"`. -/
theorem C4_counterexample :
    format_decimal (.int 0) 7 = "0E-7" ∧ ("0E-7" : String) ≠ "0.0" :=
  ⟨by decide, by decide⟩

/-- C9 counterexample: two valid `-?\d+\.\d+` strings with `n` no
smaller than their fractional-digit count that do not reproduce
themselves: `"1.50"` at `n = 2` trims to `"1.5"`, and `"0.0000001"` at
`n = 7` renders in scientific notation `"1E-7"`. -/
theorem C9_counterexample :
    isFmtDecimal "1.50" = true ∧ fracCount "1.50" = 2 ∧
    format_decimal (.str "1.50") 2 = "1.5" ∧ ("1.5" : String) ≠ "1.50" ∧
    isFmtDecimal "0.0000001" = true ∧ fracCount "0.0000001" = 7 ∧
    format_decimal (.str "0.0000001") 7 = "1E-7" ∧ ("1E-7" : String) ≠ "0.0000001" :=
  ⟨by decide, by decide, by decide, by decide, by decide, by decide, by decide, by decide⟩

/-- C10 counterexample: `10^29` parses to a finite decimal, but its
30-digit coefficient exceeds the context precision 28, so quantizing at
`n = 0` raises and the formatter returns the sentinel `""`, which is
not an optionally-signed digit string. -/
theorem C10_counterexample :
    decOfValue (.int (10 ^ 29)) = .finite ⟨false, 10 ^ 29, 0⟩ ∧
    format_decimal (.int (10 ^ 29)) 0 = "" ∧
    isSignedDigitString "" = false :=
  ⟨by decide, by decide, by decide⟩

theorem mem_trimmedFrac {F : List Char} {c : Char}
    (h : c ∈ (F.reverse.dropWhile (fun x => x = '0')).reverse) : c ∈ F := by
  rw [List.mem_reverse] at h
  have hsub := List.dropWhile_sublist (l := F.reverse) (p := fun x => x = '0')
  have := hsub.mem h
  rwa [List.mem_reverse] at this

/-- C3 amended: for `n ≥ 1` every formatter output is the empty
string, a `-?\d+\.\d+` string, a string containing `'E'` (only when
the quantized decimal renders in scientific notation, adjusted
exponent below -6), or a quiet-NaN rendering `-?NaN\d*` (only for
quiet-NaN string inputs, which `quantize` propagates without
raising). -/
theorem C3_amended_output_shape (v : PyValue) (n : Nat) (hn : 1 ≤ n) :
    format_decimal v n = "" ∨ isFmtDecimal (format_decimal v n) = true ∨
      (format_decimal v n).data.contains 'E' = true ∨
      (∃ (b : Bool) (p : Nat), format_decimal v n = pyNaNStr b p) := by
  rcases format_decimal_cases v n with h | ⟨b, p, hdec, hfmt⟩ | ⟨d, q, hdec, hq, hfmt⟩
  · exact Or.inl h
  · right; right; right
    exact ⟨b, p % 10 ^ 28, by rw [hfmt, trim_pyNaNStr]⟩
  · obtain ⟨hsign, hexp, _⟩ := pyQuantize_eq d n q hq
    by_cases hplain : -6 ≤ q.exp + ((natChars q.coeff).length : Int) - 1
    · right; left
      obtain ⟨I, F, hdata, hI, hIdig, hFdig, hFlen, _⟩ :=
        pyDecimalStr_plain_shape q n hexp hn hplain
      have hstr : pyDecimalStr q = ⟨(if q.sign then ['-'] else []) ++ I ++ '.' :: F⟩ :=
        String.ext hdata
      rw [hfmt, hstr, trim_shaped _ _ _ hFdig]
      by_cases hemp : ((F.reverse.dropWhile (fun x => x = '0')).reverse).isEmpty = true
      · rw [if_pos hemp]
        exact isFmtDecimal_shaped q.sign I ['0'] hI (by simp) hIdig
          (by intro x hx; simp at hx; rw [hx]; decide)
      · rw [if_neg hemp]
        refine isFmtDecimal_shaped q.sign I _ hI ?_ hIdig ?_
        · intro hnil
          rw [hnil] at hemp
          simp at hemp
        · intro x hx
          exact hFdig x (mem_trimmedFrac hx)
    · right; right; left
      have hsci : ¬(q.exp ≤ 0 ∧ -6 ≤ q.exp + ((natChars q.coeff).length : Int) - 1) :=
        fun hh => hplain hh.2
      have hmem := trim_mem_E _ (pyDecimalStr_sci_mem q hsci)
      rw [hfmt]
      simpa using hmem

/-- C3 witness: the amended statement at a concrete value and
precision. -/
theorem C3_amended_output_shape_witness :
    (1 ≤ 2) ∧ (format_decimal (.int 5) 2 = "" ∨
      isFmtDecimal (format_decimal (.int 5) 2) = true ∨
      (format_decimal (.int 5) 2).data.contains 'E' = true ∨
      (∃ (b : Bool) (p : Nat), format_decimal (.int 5) 2 = pyNaNStr b p)) :=
  ⟨by decide, C3_amended_output_shape (.int 5) 2 (by decide)⟩

/-- Quantizing any decimal spelling `K·10^j / 10^j` of the whole number
`K` to `n` places gives coefficient `K·10^n` exactly (both when digits
are appended and when the surplus zero fraction digits are divided
away). -/
theorem pyQuantize_whole (b : Bool) (K j n : Nat) (hn : n ≤ 1000026)
    (hdig : numDigits (K * 10 ^ n) ≤ 28) :
    pyQuantize ⟨b, K * 10 ^ j, -(j : Int)⟩ n = some ⟨b, K * 10 ^ n, -(n : Int)⟩ := by
  have hc : (if 0 ≤ -(j : Int) + (n : Int) then
        K * 10 ^ j * 10 ^ ((-(j : Int) + (n : Int)).toNat)
      else
        K * 10 ^ j / 10 ^ ((-(-(j : Int) + (n : Int))).toNat) +
          (if 10 ^ ((-(-(j : Int) + (n : Int))).toNat) ≤
              2 * (K * 10 ^ j % 10 ^ ((-(-(j : Int) + (n : Int))).toNat)) then 1 else 0)) =
      K * 10 ^ n := by
    by_cases hjn : j ≤ n
    · rw [if_pos (by omega)]
      rw [show ((-(j : Int) + (n : Int)).toNat) = n - j from by omega,
        mul_assoc, ← pow_add]
      congr 2
      omega
    · rw [if_neg (by omega)]
      rw [show ((-(-(j : Int) + (n : Int))).toNat) = j - n from by omega]
      have hsplit : K * 10 ^ j = K * 10 ^ n * 10 ^ (j - n) := by
        rw [mul_assoc, ← pow_add]
        congr 2
        omega
      rw [hsplit, Nat.mul_div_cancel _ (by positivity), Nat.mul_mod_left]
      rw [if_neg (by
        have : 0 < 10 ^ (j - n) := by positivity
        omega)]
      omega
  unfold pyQuantize
  simp only
  rw [if_neg (by omega : ¬ 1000026 < n), hc, if_neg (by omega : ¬ 28 < numDigits (K * 10 ^ n))]

/-- C4 amended: the formatter's output never ends in `'.'`; a nonzero
whole-number value (any decimal spelling `K·10^j` with `j` zero
fraction digits) at `n ≥ 1` gets exactly one fractional zero whenever
its quantized coefficient fits the 28-digit precision; the whole
number 0 gets `"0.0"` for `1 ≤ n ≤ 6`; and the spec's examples hold:
`format(12.000, 3) = "12.0"`, `format(12, 2) = "12.0"`,
`format(0.0001, 3) = "0.0"`. -/
theorem C4_amended_trailing_zeros :
    (∀ (v : PyValue) (n : Nat), strEndsWithDot (format_decimal v n) = false) ∧
    (∀ (b : Bool) (K j n : Nat), 1 ≤ n → K ≠ 0 → n ≤ 1000026 →
      numDigits (K * 10 ^ n) ≤ 28 →
      format_decimal (.float ⟨b, K * 10 ^ j, -(j : Int)⟩) n =
        ⟨(if b then ['-'] else []) ++ natChars K ++ ['.', '0']⟩) ∧
    (∀ (b : Bool) (n : Nat), 1 ≤ n → n ≤ 6 →
      format_decimal (.float ⟨b, 0, 0⟩) n = ⟨(if b then ['-'] else []) ++ ['0', '.', '0']⟩) ∧
    format_decimal (.float ⟨false, 12, 0⟩) 3 = "12.0" ∧
    format_decimal (.int 12) 2 = "12.0" ∧
    format_decimal (.float ⟨false, 1, -4⟩) 3 = "0.0" := by
  refine ⟨?_, ?_, ?_, by decide, by decide, by decide⟩
  · intro v n
    rcases format_decimal_cases v n with h | ⟨b, p, _, hfmt⟩ | ⟨d, q, _, _, hfmt⟩
    · rw [h]
      rfl
    · rw [hfmt]
      exact trim_never_ends_dot _
    · rw [hfmt]
      exact trim_never_ends_dot _
  · intro b K j n hn hK hbound hdig
    rw [format_decimal_finite (.float ⟨b, K * 10 ^ j, -(j : Int)⟩) ⟨b, K * 10 ^ j, -(j : Int)⟩ n rfl]
    simp only [pyQuantize_whole b K j n hbound hdig]
    rw [trim_render_whole b K n hK hn]
  · intro b n hn h6
    rw [format_decimal_finite (.float ⟨b, 0, 0⟩) ⟨b, 0, 0⟩ n rfl]
    have hq : pyQuantize ⟨b, 0, 0⟩ n = some ⟨b, 0, -(n : Int)⟩ := by
      unfold pyQuantize
      simp only
      rw [if_neg (by omega : ¬ 1000026 < n), if_pos (by omega : (0 : Int) ≤ 0 + (n : Int))]
      simp only [zero_mul]
      rw [if_neg (by decide : ¬ 28 < numDigits 0)]
    simp only [hq]
    rw [trim_render_zero b n hn h6]
    apply congrArg
    simp

/-- C4 witness: the whole-number rule applied to the spelling `12.0`
(coefficient 120, one fractional zero) at `n = 2`, giving `"12.0"`. -/
theorem C4_amended_trailing_zeros_witness :
    (1 ≤ 2) ∧ (12 ≠ 0) ∧ (2 ≤ 1000026) ∧ numDigits (12 * 10 ^ 2) ≤ 28 ∧
    format_decimal (.float ⟨false, 12 * 10 ^ 1, -(1 : Int)⟩) 2 =
      ⟨(if false then ['-'] else []) ++ natChars 12 ++ ['.', '0']⟩ :=
  ⟨by decide, by decide, by decide, by decide,
    C4_amended_trailing_zeros.2.1 false 12 1 2 (by decide) (by decide) (by decide) (by decide)⟩

/-- C6: with a valid reference, nonnegative precision and existing
columns, `control_decimal_precision` succeeds, returns a reference
distinct from the input's, leaves the input table unchanged in the
store, and for an empty column list the copy is value-equal to the
input. -/
theorem C6_copy_safety (store : List Table) (dfRef : Nat) (cols : List String) (n : Int)
    (href : dfRef < store.length) (hn : 0 ≤ n)
    (hcols : ∀ c ∈ cols, (store.getD dfRef ⟨[]⟩).lookup c ≠ Option.none) :
    ∃ store2 ref2, control_decimal_precision store dfRef cols n = .ok (store2, ref2) ∧
      ref2 ≠ dfRef ∧
      store2.getD dfRef ⟨[]⟩ = store.getD dfRef ⟨[]⟩ ∧
      (cols = [] → store2.getD ref2 ⟨[]⟩ = store.getD dfRef ⟨[]⟩) := by
  obtain ⟨t2, ht2⟩ := applyCols_ok (store.getD dfRef ⟨[]⟩) cols n.toNat hcols
  refine ⟨store ++ [col_to_str t2 cols], store.length, ?_, by omega, ?_, ?_⟩
  · unfold control_decimal_precision
    rw [if_neg (by omega)]
    simp only [ht2]
  · rw [List.getD_eq_getElem?_getD, List.getD_eq_getElem?_getD,
      List.getElem?_append_left href]
  · intro hnil
    subst hnil
    unfold applyCols at ht2
    cases ht2
    rw [List.getD_eq_getElem?_getD, List.getElem?_concat_length]
    rfl

/-- C6 witness: a one-table store, one existing column, `n = 2`. -/
theorem C6_copy_safety_witness :
    (0 < ([⟨[("a", ⟨Dtype.float64, [PyValue.int 1]⟩)]⟩] : List Table).length) ∧
    ((0 : Int) ≤ 2) ∧
    (∀ c ∈ (["a"] : List String),
      (([⟨[("a", ⟨Dtype.float64, [PyValue.int 1]⟩)]⟩] : List Table).getD 0 ⟨[]⟩).lookup c ≠
        Option.none) ∧
    (∃ store2 ref2,
      control_decimal_precision [⟨[("a", ⟨Dtype.float64, [PyValue.int 1]⟩)]⟩] 0 ["a"] 2 =
        .ok (store2, ref2) ∧ ref2 ≠ 0 ∧
      store2.getD 0 ⟨[]⟩ = ([⟨[("a", ⟨Dtype.float64, [PyValue.int 1]⟩)]⟩] : List Table).getD 0 ⟨[]⟩ ∧
      ((["a"] : List String) = [] → store2.getD ref2 ⟨[]⟩ =
        ([⟨[("a", ⟨Dtype.float64, [PyValue.int 1]⟩)]⟩] : List Table).getD 0 ⟨[]⟩)) :=
  ⟨by decide, by decide, by decide,
    C6_copy_safety [⟨[("a", ⟨Dtype.float64, [PyValue.int 1]⟩)]⟩] 0 ["a"] 2
      (by decide) (by decide) (by decide)⟩

/-- C7: a negative precision fails with the `ValueError` condition
before anything else; with a nonnegative precision, a column name
absent from the table makes the call fail with a `KeyError` naming a
missing column. -/
theorem C7_argument_errors (store : List Table) (dfRef : Nat) (cols : List String) (n : Int) :
    (n < 0 → control_decimal_precision store dfRef cols n = .error .valueError) ∧
    (0 ≤ n → (∃ c ∈ cols, (store.getD dfRef ⟨[]⟩).lookup c = Option.none) →
      ∃ c, control_decimal_precision store dfRef cols n = .error (.keyError c) ∧
        (store.getD dfRef ⟨[]⟩).lookup c = Option.none) := by
  constructor
  · intro hneg
    unfold control_decimal_precision
    rw [if_pos hneg]
  · intro hn hmissing
    obtain ⟨c, hc, hcnone⟩ := applyCols_missing (store.getD dfRef ⟨[]⟩) cols n.toNat hmissing
    refine ⟨c, ?_, hcnone⟩
    unfold control_decimal_precision
    rw [if_neg (by omega)]
    simp only [hc]

/-- C7 witness: `n = -1` raises `ValueError`; a missing column `"b"`
raises a `KeyError`. -/
theorem C7_argument_errors_witness :
    ((-1 : Int) < 0 ∧
      control_decimal_precision [⟨[("a", ⟨Dtype.float64, [PyValue.int 1]⟩)]⟩] 0 ["a"] (-1) =
        .error .valueError) ∧
    ((0 : Int) ≤ 2 ∧
      (∃ c ∈ (["b"] : List String),
        (([⟨[("a", ⟨Dtype.float64, [PyValue.int 1]⟩)]⟩] : List Table).getD 0 ⟨[]⟩).lookup c =
          Option.none) ∧
      ∃ c, control_decimal_precision [⟨[("a", ⟨Dtype.float64, [PyValue.int 1]⟩)]⟩] 0 ["b"] 2 =
          .error (.keyError c) ∧
        (([⟨[("a", ⟨Dtype.float64, [PyValue.int 1]⟩)]⟩] : List Table).getD 0 ⟨[]⟩).lookup c =
          Option.none) :=
  ⟨⟨by decide,
    (C7_argument_errors [⟨[("a", ⟨Dtype.float64, [PyValue.int 1]⟩)]⟩] 0 ["a"] (-1)).1 (by decide)⟩,
   ⟨by decide, ⟨"b", by decide, by decide⟩,
    (C7_argument_errors [⟨[("a", ⟨Dtype.float64, [PyValue.int 1]⟩)]⟩] 0 ["b"] 2).2 (by decide)
      ⟨"b", by decide, by decide⟩⟩⟩

/-- C8: in the returned copy, every column whose name was not listed is
looked up to exactly the same column (same dtype, same values) as in
the input table. -/
theorem C8_untouched_columns (store : List Table) (dfRef : Nat) (cols : List String) (n : Int)
    (store2 : List Table) (ref2 : Nat)
    (h : control_decimal_precision store dfRef cols n = .ok (store2, ref2))
    (w : String) (hw : w ∉ cols) :
    (store2.getD ref2 ⟨[]⟩).lookup w = (store.getD dfRef ⟨[]⟩).lookup w := by
  unfold control_decimal_precision at h
  by_cases hneg : n < 0
  · rw [if_pos hneg] at h
    cases h
  · rw [if_neg hneg] at h
    cases ht2 : applyCols (store.getD dfRef ⟨[]⟩) cols n.toNat with
    | error e =>
        simp only [ht2] at h
        cases h
    | ok t2 =>
        simp only [ht2, Except.ok.injEq, Prod.mk.injEq] at h
        obtain ⟨rfl, rfl⟩ := h
        rw [List.getD_eq_getElem?_getD, List.getElem?_concat_length]
        show (col_to_str t2 cols).lookup w = _
        rw [col_to_str_frame t2 cols w hw, applyCols_frame _ cols n.toNat t2 ht2 w hw]

/-- C8 witness: formatting column `"a"` of a two-column table leaves
column `"b"` exactly as it was. -/
theorem C8_untouched_columns_witness :
    control_decimal_precision
        [⟨[("a", ⟨Dtype.float64, [PyValue.int 1]⟩), ("b", ⟨Dtype.int64, [PyValue.int 7]⟩)]⟩]
        0 ["a"] 2 =
      .ok ([⟨[("a", ⟨Dtype.float64, [PyValue.int 1]⟩), ("b", ⟨Dtype.int64, [PyValue.int 7]⟩)]⟩,
            ⟨[("a", ⟨Dtype.string, [PyValue.str "1.0"]⟩), ("b", ⟨Dtype.int64, [PyValue.int 7]⟩)]⟩],
           1) ∧
    ("b" ∉ (["a"] : List String)) ∧
    (([⟨[("a", ⟨Dtype.float64, [PyValue.int 1]⟩), ("b", ⟨Dtype.int64, [PyValue.int 7]⟩)]⟩,
       ⟨[("a", ⟨Dtype.string, [PyValue.str "1.0"]⟩), ("b", ⟨Dtype.int64, [PyValue.int 7]⟩)]⟩] :
        List Table).getD 1 ⟨[]⟩).lookup "b" =
      (([⟨[("a", ⟨Dtype.float64, [PyValue.int 1]⟩), ("b", ⟨Dtype.int64, [PyValue.int 7]⟩)]⟩] :
        List Table).getD 0 ⟨[]⟩).lookup "b" :=
  ⟨by rfl, by decide,
    C8_untouched_columns
      [⟨[("a", ⟨Dtype.float64, [PyValue.int 1]⟩), ("b", ⟨Dtype.int64, [PyValue.int 7]⟩)]⟩]
      0 ["a"] 2
      [⟨[("a", ⟨Dtype.float64, [PyValue.int 1]⟩), ("b", ⟨Dtype.int64, [PyValue.int 7]⟩)]⟩,
       ⟨[("a", ⟨Dtype.string, [PyValue.str "1.0"]⟩), ("b", ⟨Dtype.int64, [PyValue.int 7]⟩)]⟩]
      1 (by rfl) "b" (by decide)⟩

/-- C9 amended: a canonically rendered decimal string (plain positional
text of `⟨b, c, -m⟩` with `m ≥ 1` fractional digits and no redundant
trailing zero) is a valid FormattedDecimal with `m` fractional digits,
and for every `n ≥ m` for which the quantize succeeds within the
28-digit precision and the requantized decimal still renders plainly,
formatting it at `n` reproduces it exactly. -/
theorem C9_amended_idempotence (b : Bool) (c m n : Nat)
    (hm : 1 ≤ m) (hmn : m ≤ n)
    (hcanon : c % 10 ≠ 0 ∨ (c = 0 ∧ m = 1))
    (hadj : -6 ≤ -(m : Int) + ((natChars c).length : Int) - 1)
    (hbound : n ≤ 1000026) (hdig : numDigits (c * 10 ^ (n - m)) ≤ 28)
    (hplain2 : -6 ≤ -(n : Int) + (numDigits (c * 10 ^ (n - m)) : Int) - 1) :
    isFmtDecimal (pyDecimalStr ⟨b, c, -(m : Int)⟩) = true ∧
    fracCount (pyDecimalStr ⟨b, c, -(m : Int)⟩) = m ∧
    format_decimal (.str (pyDecimalStr ⟨b, c, -(m : Int)⟩)) n =
      pyDecimalStr ⟨b, c, -(m : Int)⟩ := by
  obtain ⟨I, F, hdata, hI, hIdig, hFdig, hFlen, hval⟩ :=
    pyDecimalStr_plain_shape ⟨b, c, -(m : Int)⟩ m rfl hm hadj
  have hFne : F ≠ [] := by
    intro hnil
    rw [hnil] at hFlen
    simp at hFlen
    omega
  have hstr : pyDecimalStr ⟨b, c, -(m : Int)⟩ = ⟨(if b then ['-'] else []) ++ I ++ '.' :: F⟩ :=
    String.ext hdata
  refine ⟨?_, ?_, ?_⟩
  · rw [hstr]
    exact isFmtDecimal_shaped b I F hI hFne hIdig hFdig
  · rw [hstr, fracCount_shaped _ _ _ (by
      intro x hx
      cases b
      · simp at hx
      · simp at hx
        rw [hx]
        decide) hIdig]
    exact hFlen
  · have hdec : decOfValue (.str (pyDecimalStr ⟨b, c, -(m : Int)⟩)) =
        .finite ⟨b, c, -(m : Int)⟩ := by
      show parseDec (pyDecimalStr ⟨b, c, -(m : Int)⟩) = _
      unfold parseDec
      rw [hdata, parse_shaped b I F hI hIdig hFdig, hval, hFlen]
    rw [format_decimal_finite _ ⟨b, c, -(m : Int)⟩ n hdec]
    have hq : pyQuantize ⟨b, c, -(m : Int)⟩ n = some ⟨b, c * 10 ^ (n - m), -(n : Int)⟩ := by
      unfold pyQuantize
      simp only
      rw [if_neg (by omega : ¬ 1000026 < n), if_pos (by omega : (0 : Int) ≤ -(m : Int) + (n : Int)),
        show ((-(m : Int) + (n : Int)).toNat) = n - m from by omega,
        if_neg (by omega : ¬ 28 < numDigits (c * 10 ^ (n - m)))]
    simp only [hq]
    rcases hcanon with hc10 | ⟨rfl, rfl⟩
    · have := trim_render_shift b c m (n - m) hc10 hm hadj
      rw [show m + (n - m) = n from by omega] at this
      exact this
    · have hn6 : n ≤ 6 := by
        have h1 : numDigits (0 * 10 ^ (n - 1)) = 1 := by
          rw [Nat.zero_mul]
          decide
        rw [h1] at hplain2
        omega
      rw [Nat.zero_mul]
      rw [trim_render_zero b n (by omega) hn6]
      cases b <;> decide

/-- C9 witness: the canonical string `"0.5"` (`c = 5`, `m = 1`)
formatted at `n = 3` reproduces itself. -/
theorem C9_amended_idempotence_witness :
    (1 ≤ 1) ∧ (1 ≤ 3) ∧ ((5 : Nat) % 10 ≠ 0 ∨ ((5 : Nat) = 0 ∧ (1 : Nat) = 1)) ∧
    (-6 ≤ -((1 : Nat) : Int) + ((natChars 5).length : Int) - 1) ∧
    ((3 : Nat) ≤ 1000026) ∧ (numDigits (5 * 10 ^ (3 - 1)) ≤ 28) ∧
    (-6 ≤ -((3 : Nat) : Int) + ((numDigits (5 * 10 ^ (3 - 1)) : Nat) : Int) - 1) ∧
    (isFmtDecimal (pyDecimalStr ⟨false, 5, -(1 : Int)⟩) = true ∧
     fracCount (pyDecimalStr ⟨false, 5, -(1 : Int)⟩) = 1 ∧
     format_decimal (.str (pyDecimalStr ⟨false, 5, -(1 : Int)⟩)) 3 =
       pyDecimalStr ⟨false, 5, -(1 : Int)⟩) :=
  ⟨by decide, by decide, by decide, by decide, by decide, by decide, by decide,
    C9_amended_idempotence false 5 1 3 (by decide) (by decide) (by decide) (by decide)
      (by decide) (by decide) (by decide)⟩

/-- C10 amended: at `n = 0`, whenever the value parses to a finite
decimal and the quantize to exponent 0 succeeds within the context
precision, the output is an optionally-signed digit string with no
decimal point (so the trimming block never fires). -/
theorem C10_amended_integer_shape (v : PyValue) (d q : PyDecimal)
    (hd : decOfValue v = .finite d) (hq : pyQuantize d 0 = some q) :
    isSignedDigitString (format_decimal v 0) = true ∧
    strContainsDot (format_decimal v 0) = false := by
  obtain ⟨hsign, hexp, _⟩ := pyQuantize_eq d 0 q hq
  have hexp0 : q.exp = 0 := by
    rw [hexp]
    simp
  have hdata := pyDecimalStr_int_data q hexp0
  have hnodot : strContainsDot (pyDecimalStr q) = false := by
    unfold strContainsDot
    rw [hdata]
    have hmem : '.' ∉ (if q.sign then ['-'] else []) ++ natChars q.coeff := by
      intro hm
      rcases List.mem_append.1 hm with h1 | h1
      · by_cases hs : q.sign = true
        · rw [hs] at h1
          simp only [if_true, List.mem_singleton] at h1
          exact absurd h1 (by decide)
        · rw [Bool.not_eq_true] at hs
          rw [hs] at h1
          simp at h1
      · exact absurd (natChars_all_digits _ _ h1) (by decide)
    simpa using hmem
  have htrim : trimTrailingZeros (pyDecimalStr q) = pyDecimalStr q := by
    unfold trimTrailingZeros
    rw [hnodot]
    simp
  rw [format_decimal_finite v d 0 hd]
  simp only [hq]
  rw [htrim]
  refine ⟨?_, hnodot⟩
  unfold isSignedDigitString
  rw [hdata, stripLeadMinus_shaped q.sign _ (natChars_ne_nil _)
    (fun h => isDigitChar_ne _ (natChars_all_digits _ _ (List.head_mem h)) '-' (by decide))]
  have hne := natChars_ne_nil q.coeff
  have hemp : (natChars q.coeff).isEmpty = false := by
    cases hcc : natChars q.coeff with
    | nil => exact absurd hcc hne
    | cons x t => rfl
  simp [hemp, List.all_eq_true.2 (natChars_all_digits q.coeff)]

/-- C10 witness: the integer 5 at `n = 0` formats to the digit string
`"5"` with no decimal point. -/
theorem C10_amended_integer_shape_witness :
    decOfValue (.int 5) = .finite ⟨false, 5, 0⟩ ∧
    pyQuantize ⟨false, 5, 0⟩ 0 = some ⟨false, 5, 0⟩ ∧
    (isSignedDigitString (format_decimal (.int 5) 0) = true ∧
     strContainsDot (format_decimal (.int 5) 0) = false) :=
  ⟨by decide, by decide,
    C10_amended_integer_shape (.int 5) ⟨false, 5, 0⟩ ⟨false, 5, 0⟩ (by decide) (by decide)⟩
